import Mathlib

/-!
Shallow embedding of the `.preferences_pb` codec (protobuf-style wire format)
implemented in the repository's editor script: varint encode/decode,
little-endian fixed-width reads/writes, the Value "oneof" message codec,
the MapEntry codec, and the top-level PreferenceMap codec.

Modelling conventions:
* Buffers are `List Nat`; each element stands for one byte.  All byte-level
  operations mirror the source (`&&&`, `|||`, `<<<`, `>>>`, index reads,
  Python slicing which clamps at the end of the buffer).
* Python `str` values are modelled by their UTF-8 byte sequences.  The
  source decodes bytes with `decode('utf-8', errors='replace')` and encodes
  with `encode('utf-8')`; on the domain of valid UTF-8 this pair is a
  bijection, so strings are carried as raw byte lists.
* IEEE754 float/double values pass through the source only as raw bit
  patterns (`struct.unpack(struct.pack(...))` reinterpretation); they are
  modelled by their 32/64-bit bit patterns.
* Python exceptions become `Except Err`; the distinct `ValueError` messages
  of the source become distinct `Err` constructors.
* Every `while` loop of the source becomes structural recursion on an
  explicit fuel argument.  Each loop iteration strictly advances the
  read offset, so the fuel supplied by the wrappers
  (`buffer length + 1`, and `12` for the varint loop, whose shift guard
  bounds it to at most 11 iterations) is never exhausted; the `fuelOut`
  marker is unreachable from the wrappers.
-/

/-- Decode errors, one constructor per distinct `ValueError` raised by the
source, plus the unreachable fuel marker. -/
inductive Err where
  | truncatedVarint
  | varintTooBig
  | truncatedFixed32
  | truncatedFixed64
  | truncatedString
  | truncatedStringSet
  | unknownWireValue
  | unknownWireEntry
  | unknownWireTop
  | fuelOut
deriving DecidableEq, Repr

/-- Wire type 0: varint. -/
def WIRE_VARINT : Nat := 0
/-- Wire type 1: 64-bit. -/
def WIRE_64BIT : Nat := 1
/-- Wire type 2: length-delimited. -/
def WIRE_LENGTH : Nat := 2
/-- Wire type 5: 32-bit. -/
def WIRE_32BIT : Nat := 5

/-- Loop body of `read_varint`: accumulate 7-bit groups, least significant
first, until a byte without the continuation bit; mirrors the source's
`while True` loop including the `shift > 70` overflow guard. -/
def read_varint_loop : Nat → List Nat → Nat → Nat → Nat → Except Err (Nat × Nat)
  | 0, _, _, _, _ => .error .fuelOut
  | fuel+1, data, pos, result, shift =>
    if pos < data.length then
      let b := data.getD pos 0
      let result2 := result ||| ((b &&& 0x7F) <<< shift)
      if b &&& 0x80 = 0 then
        .ok (result2, pos + 1)
      else
        if shift + 7 > 70 then .error .varintTooBig
        else read_varint_loop fuel data (pos + 1) result2 (shift + 7)
    else .error .truncatedVarint

/-- `read_varint(data, offset)` of the source: returns `(value, new_offset)`.
The shift guard stops the loop after at most 11 iterations, so fuel 12 is
never exhausted. -/
def read_varint (data : List Nat) (offset : Nat) : Except Err (Nat × Nat) :=
  read_varint_loop 12 data offset 0 0

/-- Loop body of `encode_varint` on a non-negative value: emit 7-bit groups,
least significant first, setting the continuation bit on all but the last. -/
def encVarNat_loop : Nat → Nat → List Nat
  | 0, _ => []
  | fuel+1, value =>
    let to_write := value &&& 0x7F
    if value >>> 7 = 0 then [to_write]
    else (to_write ||| 0x80) :: encVarNat_loop fuel (value >>> 7)

/-- `encode_varint` of the source restricted to non-negative input (after the
source's negative-value masking). -/
def encVarNat (value : Nat) : List Nat :=
  encVarNat_loop (value + 1) value

/-- The value actually fed to the encoding loop by `encode_varint`: Python's
`value &= (1 << 64) - 1` masks only negative inputs (two's complement). -/
def pyU64 (value : Int) : Nat :=
  if value < 0 then (value % ((2:Int)^64)).toNat else value.toNat

/-- `encode_varint(value)` of the source: mask a negative value to unsigned
64-bit two's complement, then emit base-128 groups. -/
def encode_varint (value : Int) : List Nat :=
  encVarNat (pyU64 value)

/-- Python slicing `data[off : off + ln]`: clamps silently at the end of the
buffer, never fails. -/
def pySlice (data : List Nat) (off ln : Nat) : List Nat :=
  (data.drop off).take ln

/-- `read_fixed32(data, offset)`: little-endian 4-byte read with bounds
check. -/
def read_fixed32 (data : List Nat) (offset : Nat) : Except Err (Nat × Nat) :=
  if offset + 4 > data.length then .error .truncatedFixed32
  else .ok (data.getD offset 0
      + data.getD (offset+1) 0 * 256
      + data.getD (offset+2) 0 * 65536
      + data.getD (offset+3) 0 * 16777216, offset + 4)

/-- `read_fixed64(data, offset)`: little-endian 8-byte read with bounds
check. -/
def read_fixed64 (data : List Nat) (offset : Nat) : Except Err (Nat × Nat) :=
  if offset + 8 > data.length then .error .truncatedFixed64
  else .ok (data.getD offset 0
      + data.getD (offset+1) 0 * 256
      + data.getD (offset+2) 0 * 65536
      + data.getD (offset+3) 0 * 16777216
      + data.getD (offset+4) 0 * 4294967296
      + data.getD (offset+5) 0 * 1099511627776
      + data.getD (offset+6) 0 * 281474976710656
      + data.getD (offset+7) 0 * 72057594037927936, offset + 8)

/-- `encode_fixed32(value)`: mask to 32 bits, write 4 little-endian bytes. -/
def encode_fixed32 (value : Nat) : List Nat :=
  let m := value &&& 0xffffffff
  [m % 256, m / 256 % 256, m / 65536 % 256, m / 16777216 % 256]

/-- `encode_fixed64(value)`: mask to 64 bits, write 8 little-endian bytes. -/
def encode_fixed64 (value : Nat) : List Nat :=
  let m := value &&& 0xffffffffffffffff
  [m % 256, m / 256 % 256, m / 65536 % 256, m / 16777216 % 256,
   m / 4294967296 % 256, m / 1099511627776 % 256,
   m / 281474976710656 % 256, m / 72057594037927936 % 256]

/-- The seven preference value variants.  Strings are UTF-8 byte sequences;
float/double carry IEEE754 bit patterns (see the module comment). -/
inductive PrefValue where
  | boolean : Bool → PrefValue
  | float : Nat → PrefValue
  | integer : Int → PrefValue
  | long : Int → PrefValue
  | string : List Nat → PrefValue
  | stringSet : List (List Nat) → PrefValue
  | double : Nat → PrefValue
deriving DecidableEq, Repr

/-- The `found` dictionary built by `parse_value_message`: at most one stored
payload per known field name, later occurrences overwriting earlier ones. -/
structure Found where
  boolean : Option Bool := none
  float : Option Nat := none
  integer : Option Int := none
  long : Option Int := none
  string : Option (List Nat) := none
  string_set : Option (List (List Nat)) := none
  double : Option Nat := none
deriving DecidableEq, Repr

/-- The source's int32 reinterpretation of a decoded varint:
`v if v <= 0x7fffffff else v - (1 << 32)`. -/
def reint32 (v : Nat) : Int :=
  if v ≤ 0x7fffffff then (v : Int) else (v : Int) - (2:Int)^32

/-- The source's int64 reinterpretation of a decoded varint:
`v if v <= 0x7fffffffffffffff else v - (1 << 64)`. -/
def reint64 (v : Nat) : Int :=
  if v ≤ 0x7fffffffffffffff then (v : Int) else (v : Int) - (2:Int)^64

/-- The source's final selection loop: return the first populated entry of
`found` in the fixed order boolean, float, integer, long, string,
string_set, double; `None` when nothing is populated. -/
def select_found (f : Found) : Option PrefValue :=
  match f.boolean with
  | some b => some (.boolean b)
  | none =>
    match f.float with
    | some x => some (.float x)
    | none =>
      match f.integer with
      | some i => some (.integer i)
      | none =>
        match f.long with
        | some l => some (.long l)
        | none =>
          match f.string with
          | some s => some (.string s)
          | none =>
            match f.string_set with
            | some ss => some (.stringSet ss)
            | none =>
              match f.double with
              | some d => some (.double d)
              | none => none

/-- Inner loop over a StringSet submessage slice: collect repeated field-1
strings; on any other field skip by wire type, and on an unknown wire type
`break` (ending the scan silently).  The element slice is not bounds
checked (Python slicing clamps). -/
def parse_ss_loop : Nat → List Nat → Nat → List (List Nat) → Except Err (List (List Nat))
  | 0, _, _, _ => .error .fuelOut
  | fuel+1, sub, suboff, arr =>
    if suboff < sub.length then
      match read_varint sub suboff with
      | .error e => .error e
      | .ok (stag, so1) =>
        let sfield := stag >>> 3
        let swire := stag &&& 0x7
        if sfield = 1 ∧ swire = WIRE_LENGTH then
          match read_varint sub so1 with
          | .error e => .error e
          | .ok (sln, so2) => parse_ss_loop fuel sub (so2 + sln) (arr ++ [pySlice sub so2 sln])
        else
          if swire = WIRE_VARINT then
            match read_varint sub so1 with
            | .error e => .error e
            | .ok (_, so2) => parse_ss_loop fuel sub so2 arr
          else if swire = WIRE_64BIT then parse_ss_loop fuel sub (so1 + 8) arr
          else if swire = WIRE_LENGTH then
            match read_varint sub so1 with
            | .error e => .error e
            | .ok (l, so2) => parse_ss_loop fuel sub (so2 + l) arr
          else if swire = WIRE_32BIT then parse_ss_loop fuel sub (so1 + 4) arr
          else .ok arr
    else .ok arr

/-- Main loop of `parse_value_message`: scan tag-prefixed fields, populate
`found`, skip unknown fields by wire type, raise on an unknown wire type. -/
def parse_value_loop : Nat → List Nat → Nat → Found → Except Err Found
  | 0, _, _, _ => .error .fuelOut
  | fuel+1, data, offset, found =>
    if offset < data.length then
      match read_varint data offset with
      | .error e => .error e
      | .ok (tag, off1) =>
        let field_num := tag >>> 3
        let wire := tag &&& 0x7
        if field_num = 1 ∧ wire = WIRE_VARINT then
          match read_varint data off1 with
          | .error e => .error e
          | .ok (v, off2) => parse_value_loop fuel data off2 {found with boolean := some (v != 0)}
        else if field_num = 2 ∧ wire = WIRE_32BIT then
          match read_fixed32 data off1 with
          | .error e => .error e
          | .ok (raw, off2) => parse_value_loop fuel data off2 {found with float := some raw}
        else if field_num = 3 ∧ wire = WIRE_VARINT then
          match read_varint data off1 with
          | .error e => .error e
          | .ok (v, off2) => parse_value_loop fuel data off2 {found with integer := some (reint32 v)}
        else if field_num = 4 ∧ wire = WIRE_VARINT then
          match read_varint data off1 with
          | .error e => .error e
          | .ok (v, off2) => parse_value_loop fuel data off2 {found with long := some (reint64 v)}
        else if field_num = 5 ∧ wire = WIRE_LENGTH then
          match read_varint data off1 with
          | .error e => .error e
          | .ok (ln, off2) =>
            if off2 + ln > data.length then .error .truncatedString
            else parse_value_loop fuel data (off2 + ln) {found with string := some (pySlice data off2 ln)}
        else if field_num = 6 ∧ wire = WIRE_LENGTH then
          match read_varint data off1 with
          | .error e => .error e
          | .ok (ln, off2) =>
            if off2 + ln > data.length then .error .truncatedStringSet
            else
              let sub := pySlice data off2 ln
              match parse_ss_loop (sub.length + 1) sub 0 [] with
              | .error e => .error e
              | .ok arr => parse_value_loop fuel data (off2 + ln) {found with string_set := some arr}
        else if field_num = 7 ∧ wire = WIRE_64BIT then
          match read_fixed64 data off1 with
          | .error e => .error e
          | .ok (raw, off2) => parse_value_loop fuel data off2 {found with double := some raw}
        else
          if wire = WIRE_VARINT then
            match read_varint data off1 with
            | .error e => .error e
            | .ok (_, off2) => parse_value_loop fuel data off2 found
          else if wire = WIRE_64BIT then parse_value_loop fuel data (off1 + 8) found
          else if wire = WIRE_LENGTH then
            match read_varint data off1 with
            | .error e => .error e
            | .ok (ln, off2) => parse_value_loop fuel data (off2 + ln) found
          else if wire = WIRE_32BIT then parse_value_loop fuel data (off1 + 4) found
          else .error .unknownWireValue
    else .ok found

/-- `parse_value_message(data)` of the source: scan all fields, then return
the first populated variant in the fixed priority order (or `none`). -/
def parse_value_message (data : List Nat) : Except Err (Option PrefValue) :=
  match parse_value_loop (data.length + 1) data 0 {} with
  | .error e => .error e
  | .ok f => .ok (select_found f)

/-- Inner message of a StringSet: one length-delimited field-1 entry per
element, in order (built by the `string_set` branch of
`encode_value_message`). -/
def encode_string_set_inner (ss : List (List Nat)) : List Nat :=
  (ss.map (fun s => encVarNat ((1 <<< 3) ||| WIRE_LENGTH) ++ encVarNat s.length ++ s)).flatten

/-- `encode_value_message(type_name, value)` of the source: emit exactly the
one tagged field for the variant.  Tag and length varints are non-negative,
so the source's `encode_varint` reduces to `encVarNat` on them; the
integer/long payloads keep the signed `encode_varint`. -/
def encode_value_message : PrefValue → List Nat
  | .boolean b => encVarNat ((1 <<< 3) ||| WIRE_VARINT) ++ encode_varint (if b then 1 else 0)
  | .float bits => encVarNat ((2 <<< 3) ||| WIRE_32BIT) ++ encode_fixed32 bits
  | .integer i => encVarNat ((3 <<< 3) ||| WIRE_VARINT) ++ encode_varint i
  | .long l => encVarNat ((4 <<< 3) ||| WIRE_VARINT) ++ encode_varint l
  | .string s => encVarNat ((5 <<< 3) ||| WIRE_LENGTH) ++ encVarNat s.length ++ s
  | .stringSet ss =>
    encVarNat ((6 <<< 3) ||| WIRE_LENGTH)
      ++ encVarNat (encode_string_set_inner ss).length ++ encode_string_set_inner ss
  | .double bits => encVarNat ((7 <<< 3) ||| WIRE_64BIT) ++ encode_fixed64 bits

/-- Loop over one MapEntry slice (inlined in `parse_preferences_pb`):
field 1 is the key, field 2 the value slice, later occurrences overwrite;
other fields are skipped by wire type, an unknown wire type raises.  The
key and value slices are not bounds checked (Python slicing clamps). -/
def parse_entry_loop : Nat → List Nat → Nat → Option (List Nat) → Option (List Nat) →
    Except Err (Option (List Nat) × Option (List Nat))
  | 0, _, _, _, _ => .error .fuelOut
  | fuel+1, entry, eoff, key, val_bytes =>
    if eoff < entry.length then
      match read_varint entry eoff with
      | .error e => .error e
      | .ok (etag, e1) =>
        let efnum := etag >>> 3
        let ewire := etag &&& 0x7
        if efnum = 1 ∧ ewire = WIRE_LENGTH then
          match read_varint entry e1 with
          | .error e => .error e
          | .ok (klen, e2) => parse_entry_loop fuel entry (e2 + klen) (some (pySlice entry e2 klen)) val_bytes
        else if efnum = 2 ∧ ewire = WIRE_LENGTH then
          match read_varint entry e1 with
          | .error e => .error e
          | .ok (vlen, e2) => parse_entry_loop fuel entry (e2 + vlen) key (some (pySlice entry e2 vlen))
        else
          if ewire = WIRE_VARINT then
            match read_varint entry e1 with
            | .error e => .error e
            | .ok (_, e2) => parse_entry_loop fuel entry e2 key val_bytes
          else if ewire = WIRE_64BIT then parse_entry_loop fuel entry (e1 + 8) key val_bytes
          else if ewire = WIRE_LENGTH then
            match read_varint entry e1 with
            | .error e => .error e
            | .ok (l, e2) => parse_entry_loop fuel entry (e2 + l) key val_bytes
          else if ewire = WIRE_32BIT then parse_entry_loop fuel entry (e1 + 4) key val_bytes
          else .error .unknownWireEntry
    else .ok (key, val_bytes)

/-- Decode one MapEntry slice into its (key, value-slice) pair. -/
def parse_map_entry (entry : List Nat) : Except Err (Option (List Nat) × Option (List Nat)) :=
  parse_entry_loop (entry.length + 1) entry 0 none none

/-- Python `res[key] = v` on an insertion-ordered dictionary: overwrite in
place when the key exists, append otherwise. -/
def dictInsert (res : List (List Nat × Option PrefValue)) (key : List Nat)
    (v : Option PrefValue) : List (List Nat × Option PrefValue) :=
  if res.any (fun p => p.1 == key) then
    res.map (fun p => if p.1 = key then (p.1, v) else p)
  else res ++ [(key, v)]

/-- Top-level loop of `parse_preferences_pb`: each field-1 block is sliced
out (clamped, not bounds checked), its MapEntry parsed, and the result
inserted; entries without a key are dropped, entries without a value slice
map to `none` (Absent); other fields are skipped, unknown wire types
raise. -/
def parse_top_loop : Nat → List Nat → Nat → List (List Nat × Option PrefValue) →
    Except Err (List (List Nat × Option PrefValue))
  | 0, _, _, _ => .error .fuelOut
  | fuel+1, raw_bytes, offset, res =>
    if offset < raw_bytes.length then
      match read_varint raw_bytes offset with
      | .error e => .error e
      | .ok (tag, off1) =>
        let field_num := tag >>> 3
        let wire := tag &&& 0x7
        if field_num = 1 ∧ wire = WIRE_LENGTH then
          match read_varint raw_bytes off1 with
          | .error e => .error e
          | .ok (length, off2) =>
            let entry := pySlice raw_bytes off2 length
            let off3 := off2 + length
            match parse_map_entry entry with
            | .error e => .error e
            | .ok (none, _) => parse_top_loop fuel raw_bytes off3 res
            | .ok (some key, none) => parse_top_loop fuel raw_bytes off3 (dictInsert res key none)
            | .ok (some key, some val_bytes) =>
              match parse_value_message val_bytes with
              | .error e => .error e
              | .ok v => parse_top_loop fuel raw_bytes off3 (dictInsert res key v)
        else
          if wire = WIRE_VARINT then
            match read_varint raw_bytes off1 with
            | .error e => .error e
            | .ok (_, off2) => parse_top_loop fuel raw_bytes off2 res
          else if wire = WIRE_64BIT then parse_top_loop fuel raw_bytes (off1 + 8) res
          else if wire = WIRE_LENGTH then
            match read_varint raw_bytes off1 with
            | .error e => .error e
            | .ok (l, off2) => parse_top_loop fuel raw_bytes (off2 + l) res
          else if wire = WIRE_32BIT then parse_top_loop fuel raw_bytes (off1 + 4) res
          else .error .unknownWireTop
    else .ok res

/-- `parse_preferences_pb(raw_bytes)` of the source. -/
def parse_preferences_pb (raw_bytes : List Nat) : Except Err (List (List Nat × Option PrefValue)) :=
  parse_top_loop (raw_bytes.length + 1) raw_bytes 0 []

/-- `encode_preferences_dict(pref_dict)` of the source: one field-1 MapEntry
block per key in dictionary order; field 2 is omitted for Absent values. -/
def encode_preferences_dict (pref_dict : List (List Nat × Option PrefValue)) : List Nat :=
  (pref_dict.map (fun kv =>
    let kbytes := kv.1
    let keypart := encVarNat ((1 <<< 3) ||| WIRE_LENGTH) ++ encVarNat kbytes.length ++ kbytes
    let valpart :=
      match kv.2 with
      | none => ([] : List Nat)
      | some pv =>
        let vbytes := encode_value_message pv
        encVarNat ((2 <<< 3) ||| WIRE_LENGTH) ++ encVarNat vbytes.length ++ vbytes
    let entry_bytes := keypart ++ valpart
    encVarNat ((1 <<< 3) ||| WIRE_LENGTH) ++ encVarNat entry_bytes.length ++ entry_bytes)).flatten

deriving instance DecidableEq for Except

/-! ### Bitwise arithmetic helpers -/

/-- Masking with `0x7F` is reduction modulo 128. -/
theorem land_127 (b : Nat) : b &&& 127 = b % 128 := by
  have h := Nat.and_pow_two_sub_one_eq_mod b 7
  norm_num at h
  exact h

/-- A value below 128 has a clear continuation bit. -/
theorem land_128_eq_zero {b : Nat} (h : b < 128) : b &&& 128 = 0 := by
  have h2 : b &&& 2 ^ 7 = (b.testBit 7).toNat * 2 ^ 7 := Nat.and_two_pow b 7
  have h3 : b.testBit 7 = false := Nat.testBit_lt_two_pow (by norm_num; omega)
  rw [h3] at h2
  simpa using h2

/-- Bitwise or of a value below `2 ^ n` with a left shift by `n` is addition:
the bit ranges are disjoint. -/
theorem lor_shift_add (a b n : Nat) (h : a < 2 ^ n) :
    a ||| (b <<< n) = a + b * 2 ^ n := by
  induction n generalizing a b with
  | zero =>
    have ha : a = 0 := Nat.lt_one_iff.mp (by simpa using h)
    subst ha
    simp [Nat.shiftLeft_eq]
  | succ n ih =>
    have hy2 : (b <<< (n+1)) / 2 = b <<< n := by
      rw [Nat.shiftLeft_eq, Nat.shiftLeft_eq, pow_succ, ← Nat.mul_assoc]
      exact Nat.mul_div_cancel _ (by norm_num)
    have hymod : (b <<< (n+1)) % 2 = 0 := by
      rw [Nat.shiftLeft_eq, pow_succ, ← Nat.mul_assoc]
      exact Nat.mul_mod_left _ 2
    have hdiv : (a ||| (b <<< (n+1))) / 2 = (a / 2) ||| (b <<< n) := by
      rw [Nat.or_div_two, hy2]
    have hmod : (a ||| (b <<< (n+1))) % 2 = a % 2 := by
      rcases Nat.mod_two_eq_zero_or_one a with h0 | h1
      · have : ¬ ((a ||| (b <<< (n+1))) % 2 = 1) := by
          rw [Nat.or_mod_two_eq_one]
          omega
        omega
      · have : (a ||| (b <<< (n+1))) % 2 = 1 := by
          rw [Nat.or_mod_two_eq_one]
          left; exact h1
        omega
    have ha2 : a / 2 < 2 ^ n := by
      rw [pow_succ] at h
      omega
    have hrec := ih (a / 2) b ha2
    have hsplit := Nat.div_add_mod (a ||| (b <<< (n+1))) 2
    rw [hdiv, hmod, hrec] at hsplit
    have hb : b * 2 ^ (n + 1) = 2 * (b * 2 ^ n) := by ring
    rw [hb]
    omega

/-- Setting the continuation bit on a 7-bit group is addition of 128. -/
theorem lor_128 {a : Nat} (h : a < 128) : a ||| 128 = a + 128 := by
  have hlt : a < 2 ^ 7 := by norm_num; omega
  have h2 := lor_shift_add a 1 7 hlt
  norm_num [Nat.shiftLeft_eq] at h2
  exact h2

/-- A byte with the continuation bit set is detected as such. -/
theorem lor_128_land_128 {a : Nat} (h : a < 128) : (a ||| 128) &&& 128 ≠ 0 := by
  rw [lor_128 h]
  have h2 : (a + 128) &&& 2 ^ 7 = ((a + 128).testBit 7).toNat * 2 ^ 7 :=
    Nat.and_two_pow (a + 128) 7
  have h3 : (a + 128).testBit 7 = true := by
    rw [Nat.testBit_to_div_mod]
    have hd : (a + 128) / 2 ^ 7 = 1 := by norm_num; omega
    rw [hd]
    decide
  rw [h3] at h2
  norm_num at h2
  omega

/-- Masking the continuation bit back off recovers the 7-bit group. -/
theorem lor_128_land_127 {a : Nat} (h : a < 128) : (a ||| 128) &&& 127 = a := by
  rw [lor_128 h, land_127]
  omega

/-! ### List access helpers -/

/-- Reading the element at `off` through `getD` when the tail of the buffer
is known. -/
theorem getD_of_drop {data rest : List Nat} {off b : Nat}
    (h : data.drop off = b :: rest) : data.getD off 0 = b := by
  have h2 : (data.drop off)[0]? = some b := by rw [h]; simp
  rw [List.getElem?_drop, Nat.add_zero] at h2
  simp [h2]

/-- A nonempty known tail puts the offset strictly inside the buffer. -/
theorem lt_length_of_drop_cons {data rest : List Nat} {off b : Nat}
    (h : data.drop off = b :: rest) : off < data.length := by
  by_contra hc
  rw [List.drop_eq_nil_of_le (by omega)] at h
  exact List.noConfusion h

/-- Advancing past one known byte. -/
theorem drop_succ_of_drop {data rest : List Nat} {off b : Nat}
    (h : data.drop off = b :: rest) : data.drop (off + 1) = rest := by
  rw [← List.drop_drop, h]
  rfl

/-- Advancing past a known block. -/
theorem drop_append_of_drop {data X rest : List Nat} {off : Nat}
    (h : data.drop off = X ++ rest) : data.drop (off + X.length) = rest := by
  rw [← List.drop_drop, h, List.drop_left]

/-- Length accounting for a known tail of the buffer. -/
theorem length_drop_eq {data X rest : List Nat} {off : Nat}
    (h : data.drop off = X ++ rest) : data.length - off = X.length + rest.length := by
  have h2 := congrArg List.length h
  simpa using h2

/-- Slicing out a known block: the Python slice with the block's exact
length returns the block. -/
theorem pySlice_of_drop {data X rest : List Nat} {off : Nat}
    (h : data.drop off = X ++ rest) : pySlice data off X.length = X := by
  unfold pySlice
  rw [h, List.take_left]

/-! ### Varint encoder structure -/

/-- The encoding loop ignores fuel once the fuel exceeds the value. -/
theorem encVarNat_loop_congr : ∀ f1 f2 v, v < f1 → v < f2 →
    encVarNat_loop f1 v = encVarNat_loop f2 v := by
  intro f1
  induction f1 with
  | zero => intro f2 v h1 h2; omega
  | succ f1 ih =>
    intro f2 v h1 h2
    match f2, h2 with
    | f2+1, h2 =>
      simp only [encVarNat_loop]
      by_cases h : v >>> 7 = 0
      · simp [h]
      · simp only [h, if_false]
        have hpos : 0 < v := by
          rcases Nat.eq_zero_or_pos v with h0 | h0
          · subst h0; simp at h
          · exact h0
        have hlt : v >>> 7 < v := by
          rw [Nat.shiftRight_eq_div_pow]
          exact Nat.div_lt_self hpos (by norm_num)
        rw [ih f2 (v >>> 7) (by omega) (by omega)]

/-- One-step unfolding of the varint encoder. -/
theorem encVarNat_eq (v : Nat) : encVarNat v =
    if v >>> 7 = 0 then [v &&& 0x7F]
    else ((v &&& 0x7F) ||| 0x80) :: encVarNat (v >>> 7) := by
  show encVarNat_loop (v + 1) v = _
  simp only [encVarNat_loop]
  by_cases h : v >>> 7 = 0
  · simp [h]
  · simp only [h, if_false]
    have hpos : 0 < v := by
      rcases Nat.eq_zero_or_pos v with h0 | h0
      · subst h0; simp at h
      · exact h0
    have hlt : v >>> 7 < v := by
      rw [Nat.shiftRight_eq_div_pow]
      exact Nat.div_lt_self hpos (by norm_num)
    rw [encVarNat_loop_congr v (v >>> 7 + 1) (v >>> 7) (by omega) (by omega)]
    rfl

/-- A varint encoding is never empty. -/
theorem encVarNat_len_pos (v : Nat) : 1 ≤ (encVarNat v).length := by
  rw [encVarNat_eq]
  by_cases h : v >>> 7 = 0 <;> simp [h]

/-- A value below `2 ^ (7 * k)` encodes into at most `k` bytes. -/
theorem encVarNat_len_le : ∀ v k, 1 ≤ k → v < 2 ^ (7 * k) → (encVarNat v).length ≤ k := by
  intro v
  induction v using Nat.strong_induction_on with
  | _ v ih =>
    intro k hk hv
    rw [encVarNat_eq]
    by_cases h : v >>> 7 = 0
    · simp [h]; omega
    · simp only [h, if_false, List.length_cons]
      have hpos : 0 < v := by
        rcases Nat.eq_zero_or_pos v with h0 | h0
        · subst h0; simp at h
        · exact h0
      have hlt : v >>> 7 < v := by
        rw [Nat.shiftRight_eq_div_pow]
        exact Nat.div_lt_self hpos (by norm_num)
      have hk2 : 2 ≤ k := by
        by_contra hc
        have hk1 : k = 1 := by omega
        subst hk1
        rw [Nat.shiftRight_eq_div_pow] at h
        norm_num at hv h
        omega
      have hsplit : (2:Nat) ^ (7 * k) = 2 ^ (7 * (k - 1)) * 2 ^ 7 := by
        rw [← pow_add]
        congr 1
        omega
      have hnext : v >>> 7 < 2 ^ (7 * (k - 1)) := by
        rw [Nat.shiftRight_eq_div_pow]
        rw [hsplit] at hv
        exact (Nat.div_lt_iff_lt_mul (by positivity)).2 hv
      have hrec := ih (v >>> 7) hlt (k - 1) (by omega) hnext
      omega

/-! ### Varint decode lemmas -/

/-- Decoding an encoded varint embedded in a larger buffer: the loop
accumulates exactly the encoded value into the bits at and above `shift`
and stops right after the encoding. -/
theorem read_varint_loop_enc : ∀ v fuel data pos result shift rest,
    data.drop pos = encVarNat v ++ rest →
    result < 2 ^ shift →
    shift + 7 * ((encVarNat v).length - 1) ≤ 70 →
    (encVarNat v).length < fuel →
    read_varint_loop fuel data pos result shift
      = .ok (result + v * 2 ^ shift, pos + (encVarNat v).length) := by
  intro v
  induction v using Nat.strong_induction_on with
  | _ v ih =>
    intro fuel data pos result shift rest hdrop hres hsh hfuel
    by_cases h : v >>> 7 = 0
    · have hv128 : v < 128 := by
        rw [Nat.shiftRight_eq_div_pow] at h
        norm_num at h
        omega
      have henc : encVarNat v = [v &&& 0x7F] := by rw [encVarNat_eq, if_pos h]
      rw [henc] at hdrop hsh hfuel ⊢
      have hvv : v &&& 0x7F = v := by
        rw [land_127]
        omega
      rw [hvv] at hdrop
      simp only [List.cons_append, List.nil_append] at hdrop
      match fuel, hfuel with
      | fuel+1, _ =>
        simp only [read_varint_loop]
        rw [if_pos (lt_length_of_drop_cons hdrop), getD_of_drop hdrop, hvv]
        rw [if_pos (land_128_eq_zero hv128)]
        rw [lor_shift_add _ _ _ hres]
        simp
    · have hpos : 0 < v := by
        rcases Nat.eq_zero_or_pos v with h0 | h0
        · subst h0; simp at h
        · exact h0
      have hlt : v >>> 7 < v := by
        rw [Nat.shiftRight_eq_div_pow]
        exact Nat.div_lt_self hpos (by norm_num)
      have hm : v &&& 0x7F = v % 128 := land_127 v
      have hmlt : v % 128 < 128 := Nat.mod_lt v (by norm_num)
      have henc : encVarNat v = ((v &&& 0x7F) ||| 0x80) :: encVarNat (v >>> 7) := by
        rw [encVarNat_eq, if_neg h]
      rw [henc] at hdrop hsh hfuel ⊢
      simp only [List.length_cons] at hsh hfuel ⊢
      have hL := encVarNat_len_pos (v >>> 7)
      simp only [List.cons_append] at hdrop
      match fuel, hfuel with
      | fuel+1, hfuel =>
        simp only [read_varint_loop]
        rw [if_pos (lt_length_of_drop_cons hdrop), getD_of_drop hdrop]
        rw [hm] at hdrop ⊢
        rw [if_neg (lor_128_land_128 hmlt)]
        rw [if_neg (show ¬ (shift + 7 > 70) by omega)]
        rw [lor_128_land_127 hmlt]
        rw [lor_shift_add _ _ _ hres]
        have hdrop2 : data.drop (pos + 1) = encVarNat (v >>> 7) ++ rest :=
          drop_succ_of_drop hdrop
        have hres2 : result + v % 128 * 2 ^ shift < 2 ^ (shift + 7) := by
          have hp : (2:Nat) ^ (shift + 7) = 2 ^ shift * 128 := by
            rw [pow_add]; norm_num
          have hle : v % 128 * 2 ^ shift ≤ 127 * 2 ^ shift :=
            Nat.mul_le_mul_right _ (by omega)
          omega
        have hrec := ih (v >>> 7) hlt fuel data (pos + 1)
          (result + v % 128 * 2 ^ shift) (shift + 7) rest hdrop2 hres2
          (by omega) (by omega)
        rw [hrec]
        have hval : result + v % 128 * 2 ^ shift + v >>> 7 * 2 ^ (shift + 7)
            = result + v * 2 ^ shift := by
          rw [Nat.shiftRight_eq_div_pow]
          have hp : (2:Nat) ^ (shift + 7) = 2 ^ 7 * 2 ^ shift := by
            rw [pow_add]; ring
          rw [hp]
          have hvsplit : 128 * (v / 128) + v % 128 = v := Nat.div_add_mod v 128
          have : v % 128 * 2 ^ shift + v / 2 ^ 7 * (2 ^ 7 * 2 ^ shift)
              = (128 * (v / 128) + v % 128) * 2 ^ shift := by
            norm_num
            ring
          rw [Nat.add_assoc, this, hvsplit]
        rw [hval]
        have hpos2 : pos + 1 + (encVarNat (v >>> 7)).length
            = pos + ((encVarNat (v >>> 7)).length + 1) := by omega
        rw [hpos2]

/-- Varint round trip in context: decoding at the start of an encoded
unsigned 64-bit value embedded in a buffer yields the value back and
advances exactly past its encoding. -/
theorem read_varint_enc {v : Nat} (hv : v < 2 ^ 64) {data rest : List Nat} {pos : Nat}
    (hdrop : data.drop pos = encVarNat v ++ rest) :
    read_varint data pos = .ok (v, pos + (encVarNat v).length) := by
  have hlen : (encVarNat v).length ≤ 10 := by
    apply encVarNat_len_le v 10 (by norm_num)
    have h70 : (7:Nat) * 10 = 70 := by norm_num
    rw [h70]
    exact lt_of_lt_of_le hv (by norm_num)
  have h := read_varint_loop_enc v 12 data pos 0 0 rest hdrop (by norm_num)
    (by omega) (by omega)
  simpa using h

/-- `encode_varint` on a non-negative value skips the two's-complement
masking. -/
theorem encode_varint_natCast (n : Nat) : encode_varint (n : Int) = encVarNat n := by
  unfold encode_varint pyU64
  rw [if_neg (by omega)]
  simp

/-- Upper bound on the bytes consumed by a successful run of the varint
decode loop, as a function of the starting shift. -/
theorem read_varint_loop_consume : ∀ fuel data pos result shift v p2,
    shift ≤ 70 →
    read_varint_loop fuel data pos result shift = .ok (v, p2) →
    p2 ≤ pos + (77 - shift) / 7 := by
  intro fuel
  induction fuel with
  | zero =>
    intro data pos result shift v p2 hs h
    exact Except.noConfusion h
  | succ fuel ih =>
    intro data pos result shift v p2 hs h
    simp only [read_varint_loop] at h
    by_cases hp : pos < data.length
    · rw [if_pos hp] at h
      by_cases hb : data.getD pos 0 &&& 0x80 = 0
      · rw [if_pos hb] at h
        simp only [Except.ok.injEq, Prod.mk.injEq] at h
        omega
      · rw [if_neg hb] at h
        by_cases ho : shift + 7 > 70
        · rw [if_pos ho] at h
          exact Except.noConfusion h
        · rw [if_neg ho] at h
          have hrec := ih data (pos + 1) _ (shift + 7) v p2 (by omega) h
          omega
    · rw [if_neg hp] at h
      exact Except.noConfusion h

/-- Upper bound on the value produced by a successful run of the varint
decode loop: at most 11 seven-bit groups are ever accumulated. -/
theorem read_varint_loop_bound : ∀ fuel data pos result shift v p2,
    shift ≤ 70 → result < 2 ^ shift →
    read_varint_loop fuel data pos result shift = .ok (v, p2) →
    v < 2 ^ 77 := by
  intro fuel
  induction fuel with
  | zero =>
    intro data pos result shift v p2 hs hr h
    exact Except.noConfusion h
  | succ fuel ih =>
    intro data pos result shift v p2 hs hr h
    simp only [read_varint_loop] at h
    by_cases hp : pos < data.length
    · rw [if_pos hp] at h
      have hband : data.getD pos 0 &&& 0x7F ≤ 127 := Nat.and_le_right
      have hnext : result ||| ((data.getD pos 0 &&& 0x7F) <<< shift) < 2 ^ (shift + 7) := by
        rw [lor_shift_add _ _ _ hr]
        have hp2 : (2:Nat) ^ (shift + 7) = 2 ^ shift * 128 := by
          rw [pow_add]; norm_num
        have hle : (data.getD pos 0 &&& 0x7F) * 2 ^ shift ≤ 127 * 2 ^ shift :=
          Nat.mul_le_mul_right _ hband
        omega
      by_cases hb : data.getD pos 0 &&& 0x80 = 0
      · rw [if_pos hb] at h
        simp only [Except.ok.injEq, Prod.mk.injEq] at h
        have hmono : (2:Nat) ^ (shift + 7) ≤ 2 ^ 77 :=
          Nat.pow_le_pow_right (by norm_num) (by omega)
        omega
      · rw [if_neg hb] at h
        by_cases ho : shift + 7 > 70
        · rw [if_pos ho] at h
          exact Except.noConfusion h
        · rw [if_neg ho] at h
          exact ih data (pos + 1) _ (shift + 7) v p2 (by omega) hnext h
    · rw [if_neg hp] at h
      exact Except.noConfusion h

/-- With enough continuation bytes in range, the varint decode loop reports
overflow. -/
theorem read_varint_loop_overflow : ∀ fuel data pos result shift,
    shift ≤ 70 →
    (70 - shift) / 7 + 1 < fuel →
    pos + ((70 - shift) / 7 + 1) ≤ data.length →
    (∀ i, i < (70 - shift) / 7 + 1 → data.getD (pos + i) 0 &&& 0x80 ≠ 0) →
    read_varint_loop fuel data pos result shift = .error .varintTooBig := by
  intro fuel
  induction fuel with
  | zero =>
    intro data pos result shift hs hf hl hb
    omega
  | succ fuel ih =>
    intro data pos result shift hs hf hl hb
    simp only [read_varint_loop]
    rw [if_pos (by omega)]
    have hb0 : data.getD pos 0 &&& 0x80 ≠ 0 := by
      have := hb 0 (by omega)
      simpa using this
    rw [if_neg hb0]
    by_cases ho : shift + 7 > 70
    · rw [if_pos ho]
    · rw [if_neg ho]
      have hstep : (70 - shift) / 7 = (70 - (shift + 7)) / 7 + 1 := by omega
      apply ih data (pos + 1) _ (shift + 7) (by omega) (by omega) (by omega)
      intro i hi
      have h3 : pos + 1 + i = pos + (i + 1) := by omega
      rw [h3]
      exact hb (i + 1) (by omega)

/-- A successful `read_varint` consumes at most 11 bytes. -/
theorem read_varint_consume {data : List Nat} {pos v p2 : Nat}
    (h : read_varint data pos = .ok (v, p2)) : p2 ≤ pos + 11 := by
  have h2 := read_varint_loop_consume 12 data pos 0 0 v p2 (by norm_num) h
  omega

/-- A successful `read_varint` returns a value below `2 ^ 77`. -/
theorem read_varint_bound {data : List Nat} {pos v p2 : Nat}
    (h : read_varint data pos = .ok (v, p2)) : v < 2 ^ 77 :=
  read_varint_loop_bound 12 data pos 0 0 v p2 (by norm_num) (by norm_num) h

/-- Eleven continuation bytes at the read position force `varintTooBig`. -/
theorem read_varint_overflow {data : List Nat} {pos : Nat}
    (hlen : pos + 11 ≤ data.length)
    (hbytes : ∀ i, i < 11 → data.getD (pos + i) 0 &&& 0x80 ≠ 0) :
    read_varint data pos = .error .varintTooBig := by
  have hc : (70 - 0) / 7 + 1 = 11 := by norm_num
  apply read_varint_loop_overflow 12 data pos 0 0 (by norm_num) (by omega)
    (by omega)
  intro i hi
  exact hbytes i (by omega)

/-! ### Fixed-width read lemmas -/

/-- Reading back an encoded fixed32 embedded in a buffer. -/
theorem read_fixed32_enc {x : Nat} {data rest : List Nat} {off : Nat}
    (hdrop : data.drop off = encode_fixed32 x ++ rest) :
    read_fixed32 data off = .ok (x % 4294967296, off + 4) := by
  have hm : x &&& 0xffffffff = x % 4294967296 := by
    have h2 := Nat.and_pow_two_sub_one_eq_mod x 32
    norm_num at h2
    exact h2
  simp only [encode_fixed32, hm, List.cons_append, List.nil_append] at hdrop
  have h0 := getD_of_drop hdrop
  have hd1 := drop_succ_of_drop hdrop
  have h1 := getD_of_drop hd1
  have hd2 := drop_succ_of_drop hd1
  have h2 := getD_of_drop hd2
  have hd3 := drop_succ_of_drop hd2
  have h3 := getD_of_drop hd3
  have hd4 := drop_succ_of_drop hd3
  have hlen : off + 4 ≤ data.length := by
    have ha := lt_length_of_drop_cons hdrop
    have hb := lt_length_of_drop_cons hd3
    omega
  unfold read_fixed32
  rw [if_neg (by omega)]
  have e1 : off + 1 + 1 = off + 2 := by omega
  have e2 : off + 2 + 1 = off + 3 := by omega
  rw [e1] at h2
  rw [e1, e2] at h3
  rw [h0, h1, h2, h3]
  have hx : x % 4294967296 % 256
      + x % 4294967296 / 256 % 256 * 256
      + x % 4294967296 / 65536 % 256 * 65536
      + x % 4294967296 / 16777216 % 256 * 16777216 = x % 4294967296 := by omega
  rw [hx]

/-- Reading back an encoded fixed64 embedded in a buffer. -/
theorem read_fixed64_enc {x : Nat} {data rest : List Nat} {off : Nat}
    (hdrop : data.drop off = encode_fixed64 x ++ rest) :
    read_fixed64 data off = .ok (x % 18446744073709551616, off + 8) := by
  have hm : x &&& 0xffffffffffffffff = x % 18446744073709551616 := by
    have h2 := Nat.and_pow_two_sub_one_eq_mod x 64
    norm_num at h2
    exact h2
  simp only [encode_fixed64, hm, List.cons_append, List.nil_append] at hdrop
  have h0 := getD_of_drop hdrop
  have hd1 := drop_succ_of_drop hdrop
  have h1 := getD_of_drop hd1
  have hd2 := drop_succ_of_drop hd1
  have h2 := getD_of_drop hd2
  have hd3 := drop_succ_of_drop hd2
  have h3 := getD_of_drop hd3
  have hd4 := drop_succ_of_drop hd3
  have h4 := getD_of_drop hd4
  have hd5 := drop_succ_of_drop hd4
  have h5 := getD_of_drop hd5
  have hd6 := drop_succ_of_drop hd5
  have h6 := getD_of_drop hd6
  have hd7 := drop_succ_of_drop hd6
  have h7 := getD_of_drop hd7
  have hlen : off + 8 ≤ data.length := by
    have ha := lt_length_of_drop_cons hdrop
    have hb := lt_length_of_drop_cons hd7
    omega
  unfold read_fixed64
  rw [if_neg (by omega)]
  have e1 : off + 1 + 1 = off + 2 := by omega
  have e2 : off + 2 + 1 = off + 3 := by omega
  have e3 : off + 3 + 1 = off + 4 := by omega
  have e4 : off + 4 + 1 = off + 5 := by omega
  have e5 : off + 5 + 1 = off + 6 := by omega
  have e6 : off + 6 + 1 = off + 7 := by omega
  rw [e1] at h2
  rw [e1, e2] at h3
  rw [e1, e2, e3] at h4
  rw [e1, e2, e3, e4] at h5
  rw [e1, e2, e3, e4, e5] at h6
  rw [e1, e2, e3, e4, e5, e6] at h7
  rw [h0, h1, h2, h3, h4, h5, h6, h7]
  have hx : x % 18446744073709551616 % 256
      + x % 18446744073709551616 / 256 % 256 * 256
      + x % 18446744073709551616 / 65536 % 256 * 65536
      + x % 18446744073709551616 / 16777216 % 256 * 16777216
      + x % 18446744073709551616 / 4294967296 % 256 * 4294967296
      + x % 18446744073709551616 / 1099511627776 % 256 * 1099511627776
      + x % 18446744073709551616 / 281474976710656 % 256 * 281474976710656
      + x % 18446744073709551616 / 72057594037927936 % 256 * 72057594037927936
      = x % 18446744073709551616 := by omega
  rw [hx]

/-- A wire tag built from a field number and a small wire type, as a sum. -/
theorem tag_lor_eq (fnum w : Nat) (hw : w < 8) : (fnum <<< 3) ||| w = w + fnum * 8 := by
  rw [Nat.or_comm]
  have h2 := lor_shift_add w fnum 3 (by norm_num; omega)
  norm_num at h2
  exact h2

/-- Splitting a wire tag built from a field number and wire type. -/
theorem tag_split (fnum w : Nat) (hw : w < 8) :
    ((fnum <<< 3) ||| w) >>> 3 = fnum ∧ ((fnum <<< 3) ||| w) &&& 0x7 = w := by
  have h1 := tag_lor_eq fnum w hw
  constructor
  · rw [h1, Nat.shiftRight_eq_div_pow]
    norm_num
    omega
  · rw [h1]
    have h3 := Nat.and_pow_two_sub_one_eq_mod (w + fnum * 8) 3
    norm_num at h3
    rw [h3]
    omega

/-! ### Well-formed Value field sequences

To quantify over well-formed Value-message inputs (for the oneof priority
and last-occurrence claims) a Value slice is described as a list of
fields: either a known field carrying one of the seven variants (encoded
byte-for-byte by the source's `encode_value_message`) or an unknown field
that the decoder must skip generically. -/

/-- One field of a Value message: a known variant field, an unknown varint
field, or an unknown length-delimited field. -/
inductive Frag where
  | known : PrefValue → Frag
  | unkVarint : Nat → Nat → Frag
  | unkLen : Nat → List Nat → Frag
deriving DecidableEq, Repr

/-- Byte encoding of one field. -/
def encodeFrag : Frag → List Nat
  | .known pv => encode_value_message pv
  | .unkVarint fnum v => encVarNat ((fnum <<< 3) ||| WIRE_VARINT) ++ encVarNat v
  | .unkLen fnum p => encVarNat ((fnum <<< 3) ||| WIRE_LENGTH) ++ encVarNat p.length ++ p

/-- Byte encoding of a field sequence. -/
def encodeFrags (fs : List Frag) : List Nat :=
  (fs.map encodeFrag).flatten

/-- Structural bounds making a field sequence honestly encodable: payload
varints below `2 ^ 64`, and unknown field numbers that do not collide with
the known (field, wire) pairs. -/
def fragWF : Frag → Bool
  | .known (.boolean _) => true
  | .known (.float _) => true
  | .known (.integer i) => decide (pyU64 i < 2 ^ 64)
  | .known (.long l) => decide (pyU64 l < 2 ^ 64)
  | .known (.string s) => decide (s.length < 2 ^ 64)
  | .known (.stringSet ss) =>
      ss.all (fun s => decide (s.length < 2 ^ 64))
        && decide ((encode_string_set_inner ss).length < 2 ^ 64)
  | .known (.double _) => true
  | .unkVarint fnum v =>
      decide (fnum ≠ 1) && decide (fnum ≠ 3) && decide (fnum ≠ 4)
        && decide (fnum < 2 ^ 60) && decide (v < 2 ^ 64)
  | .unkLen fnum p =>
      decide (fnum ≠ 5) && decide (fnum ≠ 6)
        && decide (fnum < 2 ^ 60) && decide (p.length < 2 ^ 64)

/-- The image of one known payload under the decoder (the value the parser
stores into `found` when it reads the field back). -/
def decodedKnown : PrefValue → PrefValue
  | .boolean b => .boolean b
  | .float x => .float (x % 4294967296)
  | .integer i => .integer (reint32 (pyU64 i))
  | .long l => .long (reint64 (pyU64 l))
  | .string s => .string s
  | .stringSet ss => .stringSet ss
  | .double x => .double (x % 18446744073709551616)

/-- Effect of one field on the parser's `found` record. -/
def applyFrag (f : Found) : Frag → Found
  | .known (.boolean b) => {f with boolean := some b}
  | .known (.float x) => {f with float := some (x % 4294967296)}
  | .known (.integer i) => {f with integer := some (reint32 (pyU64 i))}
  | .known (.long l) => {f with long := some (reint64 (pyU64 l))}
  | .known (.string s) => {f with string := some s}
  | .known (.stringSet ss) => {f with string_set := some ss}
  | .known (.double x) => {f with double := some (x % 18446744073709551616)}
  | .unkVarint _ _ => f
  | .unkLen _ _ => f

/-- Stepping the Value loop over one encoded boolean field. -/
theorem value_step_boolean (b : Bool) (fuel : Nat) (data : List Nat) (off : Nat)
    (f : Found) (rest : List Nat)
    (hdrop : data.drop off = encodeFrag (.known (.boolean b)) ++ rest) :
    parse_value_loop (fuel + 1) data off f
      = parse_value_loop fuel data (off + (encodeFrag (.known (.boolean b))).length)
          {f with boolean := some b} := by
  cases b with
  | true =>
    have henc : encodeFrag (.known (.boolean true)) = [8, 1] := rfl
    rw [henc] at hdrop ⊢
    have hdropc : data.drop off = 8 :: ([1] ++ rest) := by rw [hdrop]; rfl
    have hre : read_varint data off = .ok (8, off + 1) := by
      have h := read_varint_enc (v := 8) (by norm_num)
        (show data.drop off = encVarNat 8 ++ ([1] ++ rest) by rw [hdrop]; rfl)
      simpa using h
    have hre1 : read_varint data (off + 1) = .ok (1, off + 2) := by
      have hdrop1 : data.drop (off + 1) = encVarNat 1 ++ rest := by
        rw [drop_succ_of_drop hdropc]; rfl
      have h := read_varint_enc (v := 1) (by norm_num) hdrop1
      have hl : (encVarNat 1).length = 1 := rfl
      rw [hl] at h
      have e : off + 1 + 1 = off + 2 := by omega
      rw [e] at h
      exact h
    simp only [parse_value_loop]
    rw [if_pos (lt_length_of_drop_cons hdropc)]
    simp only [hre]
    rw [if_pos (show (8:Nat) >>> 3 = 1 ∧ (8:Nat) &&& 0x7 = WIRE_VARINT by decide)]
    simp only [hre1]
    norm_num
    rfl
  | false =>
    have henc : encodeFrag (.known (.boolean false)) = [8, 0] := rfl
    rw [henc] at hdrop ⊢
    have hdropc : data.drop off = 8 :: ([0] ++ rest) := by rw [hdrop]; rfl
    have hre : read_varint data off = .ok (8, off + 1) := by
      have h := read_varint_enc (v := 8) (by norm_num)
        (show data.drop off = encVarNat 8 ++ ([0] ++ rest) by rw [hdrop]; rfl)
      simpa using h
    have hre1 : read_varint data (off + 1) = .ok (0, off + 2) := by
      have hdrop1 : data.drop (off + 1) = encVarNat 0 ++ rest := by
        rw [drop_succ_of_drop hdropc]; rfl
      have h := read_varint_enc (v := 0) (by norm_num) hdrop1
      have hl : (encVarNat 0).length = 1 := rfl
      rw [hl] at h
      have e : off + 1 + 1 = off + 2 := by omega
      rw [e] at h
      exact h
    simp only [parse_value_loop]
    rw [if_pos (lt_length_of_drop_cons hdropc)]
    simp only [hre]
    rw [if_pos (show (8:Nat) >>> 3 = 1 ∧ (8:Nat) &&& 0x7 = WIRE_VARINT by decide)]
    simp only [hre1]
    norm_num

/-- Stepping the Value loop over one encoded int32 field. -/
theorem value_step_integer (i : Int) (hwf : pyU64 i < 2 ^ 64) (fuel : Nat) (data : List Nat)
    (off : Nat) (f : Found) (rest : List Nat)
    (hdrop : data.drop off = encodeFrag (.known (.integer i)) ++ rest) :
    parse_value_loop (fuel + 1) data off f
      = parse_value_loop fuel data (off + (encodeFrag (.known (.integer i))).length)
          {f with integer := some (reint32 (pyU64 i))} := by
  have henc : encodeFrag (.known (.integer i)) = 24 :: encVarNat (pyU64 i) := rfl
  rw [henc] at hdrop ⊢
  have hdropc : data.drop off = 24 :: (encVarNat (pyU64 i) ++ rest) := by
    rw [hdrop]; rfl
  have hre : read_varint data off = .ok (24, off + 1) := by
    have h := read_varint_enc (v := 24) (by norm_num)
      (show data.drop off = encVarNat 24 ++ (encVarNat (pyU64 i) ++ rest) by rw [hdrop]; rfl)
    simpa using h
  have hre1 : read_varint data (off + 1)
      = .ok (pyU64 i, off + 1 + (encVarNat (pyU64 i)).length) :=
    read_varint_enc hwf (drop_succ_of_drop hdropc)
  simp only [parse_value_loop]
  rw [if_pos (lt_length_of_drop_cons hdropc)]
  simp only [hre]
  rw [if_neg (show ¬ ((24:Nat) >>> 3 = 1 ∧ (24:Nat) &&& 0x7 = WIRE_VARINT) by decide)]
  rw [if_neg (show ¬ ((24:Nat) >>> 3 = 2 ∧ (24:Nat) &&& 0x7 = WIRE_32BIT) by decide)]
  rw [if_pos (show (24:Nat) >>> 3 = 3 ∧ (24:Nat) &&& 0x7 = WIRE_VARINT by decide)]
  simp only [hre1]
  simp only [List.length_cons]
  have e : off + 1 + (encVarNat (pyU64 i)).length
      = off + ((encVarNat (pyU64 i)).length + 1) := by omega
  rw [e]

/-- Stepping the Value loop over one encoded int64 field. -/
theorem value_step_long (l : Int) (hwf : pyU64 l < 2 ^ 64) (fuel : Nat) (data : List Nat)
    (off : Nat) (f : Found) (rest : List Nat)
    (hdrop : data.drop off = encodeFrag (.known (.long l)) ++ rest) :
    parse_value_loop (fuel + 1) data off f
      = parse_value_loop fuel data (off + (encodeFrag (.known (.long l))).length)
          {f with long := some (reint64 (pyU64 l))} := by
  have henc : encodeFrag (.known (.long l)) = 32 :: encVarNat (pyU64 l) := rfl
  rw [henc] at hdrop ⊢
  have hdropc : data.drop off = 32 :: (encVarNat (pyU64 l) ++ rest) := by
    rw [hdrop]; rfl
  have hre : read_varint data off = .ok (32, off + 1) := by
    have h := read_varint_enc (v := 32) (by norm_num)
      (show data.drop off = encVarNat 32 ++ (encVarNat (pyU64 l) ++ rest) by rw [hdrop]; rfl)
    simpa using h
  have hre1 : read_varint data (off + 1)
      = .ok (pyU64 l, off + 1 + (encVarNat (pyU64 l)).length) :=
    read_varint_enc hwf (drop_succ_of_drop hdropc)
  simp only [parse_value_loop]
  rw [if_pos (lt_length_of_drop_cons hdropc)]
  simp only [hre]
  rw [if_neg (show ¬ ((32:Nat) >>> 3 = 1 ∧ (32:Nat) &&& 0x7 = WIRE_VARINT) by decide)]
  rw [if_neg (show ¬ ((32:Nat) >>> 3 = 2 ∧ (32:Nat) &&& 0x7 = WIRE_32BIT) by decide)]
  rw [if_neg (show ¬ ((32:Nat) >>> 3 = 3 ∧ (32:Nat) &&& 0x7 = WIRE_VARINT) by decide)]
  rw [if_pos (show (32:Nat) >>> 3 = 4 ∧ (32:Nat) &&& 0x7 = WIRE_VARINT by decide)]
  simp only [hre1]
  simp only [List.length_cons]
  have e : off + 1 + (encVarNat (pyU64 l)).length
      = off + ((encVarNat (pyU64 l)).length + 1) := by omega
  rw [e]

/-- Stepping the Value loop over one encoded float field. -/
theorem value_step_float (x : Nat) (fuel : Nat) (data : List Nat)
    (off : Nat) (f : Found) (rest : List Nat)
    (hdrop : data.drop off = encodeFrag (.known (.float x)) ++ rest) :
    parse_value_loop (fuel + 1) data off f
      = parse_value_loop fuel data (off + (encodeFrag (.known (.float x))).length)
          {f with float := some (x % 4294967296)} := by
  have henc : encodeFrag (.known (.float x)) = 21 :: encode_fixed32 x := rfl
  rw [henc] at hdrop ⊢
  have hdropc : data.drop off = 21 :: (encode_fixed32 x ++ rest) := by
    rw [hdrop]; rfl
  have hre : read_varint data off = .ok (21, off + 1) := by
    have h := read_varint_enc (v := 21) (by norm_num)
      (show data.drop off = encVarNat 21 ++ (encode_fixed32 x ++ rest) by rw [hdrop]; rfl)
    simpa using h
  have hfix : read_fixed32 data (off + 1) = .ok (x % 4294967296, off + 1 + 4) :=
    read_fixed32_enc (drop_succ_of_drop hdropc)
  simp only [parse_value_loop]
  rw [if_pos (lt_length_of_drop_cons hdropc)]
  simp only [hre]
  rw [if_neg (show ¬ ((21:Nat) >>> 3 = 1 ∧ (21:Nat) &&& 0x7 = WIRE_VARINT) by decide)]
  rw [if_pos (show (21:Nat) >>> 3 = 2 ∧ (21:Nat) &&& 0x7 = WIRE_32BIT by decide)]
  simp only [hfix]
  simp only [List.length_cons, show (encode_fixed32 x).length = 4 from rfl]

/-- Stepping the Value loop over one encoded double field. -/
theorem value_step_double (x : Nat) (fuel : Nat) (data : List Nat)
    (off : Nat) (f : Found) (rest : List Nat)
    (hdrop : data.drop off = encodeFrag (.known (.double x)) ++ rest) :
    parse_value_loop (fuel + 1) data off f
      = parse_value_loop fuel data (off + (encodeFrag (.known (.double x))).length)
          {f with double := some (x % 18446744073709551616)} := by
  have henc : encodeFrag (.known (.double x)) = 57 :: encode_fixed64 x := rfl
  rw [henc] at hdrop ⊢
  have hdropc : data.drop off = 57 :: (encode_fixed64 x ++ rest) := by
    rw [hdrop]; rfl
  have hre : read_varint data off = .ok (57, off + 1) := by
    have h := read_varint_enc (v := 57) (by norm_num)
      (show data.drop off = encVarNat 57 ++ (encode_fixed64 x ++ rest) by rw [hdrop]; rfl)
    simpa using h
  have hfix : read_fixed64 data (off + 1) = .ok (x % 18446744073709551616, off + 1 + 8) :=
    read_fixed64_enc (drop_succ_of_drop hdropc)
  simp only [parse_value_loop]
  rw [if_pos (lt_length_of_drop_cons hdropc)]
  simp only [hre]
  rw [if_neg (show ¬ ((57:Nat) >>> 3 = 1 ∧ (57:Nat) &&& 0x7 = WIRE_VARINT) by decide)]
  rw [if_neg (show ¬ ((57:Nat) >>> 3 = 2 ∧ (57:Nat) &&& 0x7 = WIRE_32BIT) by decide)]
  rw [if_neg (show ¬ ((57:Nat) >>> 3 = 3 ∧ (57:Nat) &&& 0x7 = WIRE_VARINT) by decide)]
  rw [if_neg (show ¬ ((57:Nat) >>> 3 = 4 ∧ (57:Nat) &&& 0x7 = WIRE_VARINT) by decide)]
  rw [if_neg (show ¬ ((57:Nat) >>> 3 = 5 ∧ (57:Nat) &&& 0x7 = WIRE_LENGTH) by decide)]
  rw [if_neg (show ¬ ((57:Nat) >>> 3 = 6 ∧ (57:Nat) &&& 0x7 = WIRE_LENGTH) by decide)]
  rw [if_pos (show (57:Nat) >>> 3 = 7 ∧ (57:Nat) &&& 0x7 = WIRE_64BIT by decide)]
  simp only [hfix]
  simp only [List.length_cons, show (encode_fixed64 x).length = 8 from rfl]

/-- Stepping the Value loop over one encoded string field. -/
theorem value_step_string (s : List Nat) (hwf : s.length < 2 ^ 64) (fuel : Nat)
    (data : List Nat) (off : Nat) (f : Found) (rest : List Nat)
    (hdrop : data.drop off = encodeFrag (.known (.string s)) ++ rest) :
    parse_value_loop (fuel + 1) data off f
      = parse_value_loop fuel data (off + (encodeFrag (.known (.string s))).length)
          {f with string := some s} := by
  have henc : encodeFrag (.known (.string s)) = 42 :: (encVarNat s.length ++ s) := rfl
  rw [henc] at hdrop ⊢
  have hdropc : data.drop off = 42 :: (encVarNat s.length ++ (s ++ rest)) := by
    rw [hdrop, List.cons_append, List.append_assoc]
  have hre : read_varint data off = .ok (42, off + 1) := by
    have h := read_varint_enc (v := 42) (by norm_num)
      (show data.drop off = encVarNat 42 ++ (encVarNat s.length ++ (s ++ rest)) by
        rw [hdropc]; rfl)
    simpa using h
  have hdrop1 : data.drop (off + 1) = encVarNat s.length ++ (s ++ rest) :=
    drop_succ_of_drop hdropc
  have hre1 : read_varint data (off + 1)
      = .ok (s.length, off + 1 + (encVarNat s.length).length) :=
    read_varint_enc hwf hdrop1
  have hdrop2 : data.drop (off + 1 + (encVarNat s.length).length) = s ++ rest :=
    drop_append_of_drop hdrop1
  have hoff : off < data.length := lt_length_of_drop_cons hdropc
  have hslice : pySlice data (off + 1 + (encVarNat s.length).length) s.length = s :=
    pySlice_of_drop hdrop2
  have hlen1 := length_drop_eq hdrop1
  simp only [List.length_append] at hlen1
  simp only [parse_value_loop]
  rw [if_pos hoff]
  simp only [hre]
  rw [if_neg (show ¬ ((42:Nat) >>> 3 = 1 ∧ (42:Nat) &&& 0x7 = WIRE_VARINT) by decide)]
  rw [if_neg (show ¬ ((42:Nat) >>> 3 = 2 ∧ (42:Nat) &&& 0x7 = WIRE_32BIT) by decide)]
  rw [if_neg (show ¬ ((42:Nat) >>> 3 = 3 ∧ (42:Nat) &&& 0x7 = WIRE_VARINT) by decide)]
  rw [if_neg (show ¬ ((42:Nat) >>> 3 = 4 ∧ (42:Nat) &&& 0x7 = WIRE_VARINT) by decide)]
  rw [if_pos (show (42:Nat) >>> 3 = 5 ∧ (42:Nat) &&& 0x7 = WIRE_LENGTH by decide)]
  simp only [hre1]
  rw [if_neg (show ¬ (data.length < off + 1 + (encVarNat s.length).length + s.length) by
    omega)]
  rw [hslice]
  simp only [List.length_cons, List.length_append]
  have e : off + 1 + (encVarNat s.length).length + s.length
      = off + ((encVarNat s.length).length + s.length + 1) := by omega
  rw [e]

/-- The StringSet inner scanner collects exactly the encoded elements, in
order, appended to the accumulator. -/
theorem parse_ss_loop_enc : ∀ (ss : List (List Nat)) (sub : List Nat) (off fuel : Nat)
    (arr : List (List Nat)),
    sub.drop off = encode_string_set_inner ss →
    (∀ s ∈ ss, s.length < 2 ^ 64) →
    sub.length - off < fuel →
    parse_ss_loop fuel sub off arr = .ok (arr ++ ss) := by
  intro ss
  induction ss with
  | nil =>
    intro sub off fuel arr hdrop hwf hfuel
    have hnil : sub.drop off = [] := by rw [hdrop]; rfl
    have hlen : sub.length ≤ off := List.drop_eq_nil_iff.mp hnil
    match fuel, hfuel with
    | fuel+1, _ =>
      simp only [parse_ss_loop]
      rw [if_neg (by omega)]
      simp
  | cons s ss ih =>
    intro sub off fuel arr hdrop hwf hfuel
    have henc : encode_string_set_inner (s :: ss)
        = 10 :: (encVarNat s.length ++ (s ++ encode_string_set_inner ss)) := by
      simp only [encode_string_set_inner, List.map_cons, List.flatten_cons, List.append_assoc]
      rfl
    rw [henc] at hdrop
    have hre : read_varint sub off = .ok (10, off + 1) := by
      have h := read_varint_enc (v := 10) (by norm_num)
        (show sub.drop off = encVarNat 10 ++ (encVarNat s.length ++ (s ++ encode_string_set_inner ss)) by
          rw [hdrop]; rfl)
      simpa using h
    have hdrop1 : sub.drop (off + 1)
        = encVarNat s.length ++ (s ++ encode_string_set_inner ss) :=
      drop_succ_of_drop hdrop
    have hre1 : read_varint sub (off + 1)
        = .ok (s.length, off + 1 + (encVarNat s.length).length) :=
      read_varint_enc (hwf s (List.mem_cons_self s ss)) hdrop1
    have hdrop2 : sub.drop (off + 1 + (encVarNat s.length).length)
        = s ++ encode_string_set_inner ss :=
      drop_append_of_drop hdrop1
    have hslice : pySlice sub (off + 1 + (encVarNat s.length).length) s.length = s :=
      pySlice_of_drop hdrop2
    have hdrop3 : sub.drop (off + 1 + (encVarNat s.length).length + s.length)
        = encode_string_set_inner ss :=
      drop_append_of_drop hdrop2
    have hoff : off < sub.length := lt_length_of_drop_cons hdrop
    have hlen1 := length_drop_eq hdrop1
    simp only [List.length_append] at hlen1
    match fuel, hfuel with
    | fuel+1, hfuel =>
      simp only [parse_ss_loop]
      rw [if_pos hoff]
      simp only [hre]
      rw [if_pos (show (10:Nat) >>> 3 = 1 ∧ (10:Nat) &&& 0x7 = WIRE_LENGTH by decide)]
      simp only [hre1, hslice]
      rw [ih sub (off + 1 + (encVarNat s.length).length + s.length) fuel (arr ++ [s])
        hdrop3 (fun t ht => hwf t (List.mem_cons_of_mem s ht)) (by omega)]
      simp

/-- Stepping the Value loop over one encoded StringSet field. -/
theorem value_step_stringSet (ss : List (List Nat))
    (hwf : ∀ s ∈ ss, s.length < 2 ^ 64)
    (hwfI : (encode_string_set_inner ss).length < 2 ^ 64)
    (fuel : Nat) (data : List Nat) (off : Nat) (f : Found) (rest : List Nat)
    (hdrop : data.drop off = encodeFrag (.known (.stringSet ss)) ++ rest) :
    parse_value_loop (fuel + 1) data off f
      = parse_value_loop fuel data (off + (encodeFrag (.known (.stringSet ss))).length)
          {f with string_set := some ss} := by
  have henc : encodeFrag (.known (.stringSet ss))
      = 50 :: (encVarNat (encode_string_set_inner ss).length ++ encode_string_set_inner ss) := rfl
  rw [henc] at hdrop ⊢
  have hdropc : data.drop off
      = 50 :: (encVarNat (encode_string_set_inner ss).length
          ++ (encode_string_set_inner ss ++ rest)) := by
    rw [hdrop, List.cons_append, List.append_assoc]
  have hre : read_varint data off = .ok (50, off + 1) := by
    have h := read_varint_enc (v := 50) (by norm_num)
      (show data.drop off = encVarNat 50 ++ (encVarNat (encode_string_set_inner ss).length
          ++ (encode_string_set_inner ss ++ rest)) by rw [hdropc]; rfl)
    simpa using h
  have hdrop1 : data.drop (off + 1)
      = encVarNat (encode_string_set_inner ss).length
          ++ (encode_string_set_inner ss ++ rest) :=
    drop_succ_of_drop hdropc
  have hre1 : read_varint data (off + 1)
      = .ok ((encode_string_set_inner ss).length,
          off + 1 + (encVarNat (encode_string_set_inner ss).length).length) :=
    read_varint_enc hwfI hdrop1
  have hdrop2 : data.drop (off + 1 + (encVarNat (encode_string_set_inner ss).length).length)
      = encode_string_set_inner ss ++ rest :=
    drop_append_of_drop hdrop1
  have hoff : off < data.length := lt_length_of_drop_cons hdropc
  have hslice : pySlice data (off + 1 + (encVarNat (encode_string_set_inner ss).length).length)
      (encode_string_set_inner ss).length = encode_string_set_inner ss :=
    pySlice_of_drop hdrop2
  have hlen1 := length_drop_eq hdrop1
  simp only [List.length_append] at hlen1
  have hinner : parse_ss_loop ((encode_string_set_inner ss).length + 1)
      (encode_string_set_inner ss) 0 [] = .ok ss := by
    have h := parse_ss_loop_enc ss (encode_string_set_inner ss) 0
      ((encode_string_set_inner ss).length + 1) [] (by simp) hwf (by omega)
    simpa using h
  simp only [parse_value_loop]
  rw [if_pos hoff]
  simp only [hre]
  rw [if_neg (show ¬ ((50:Nat) >>> 3 = 1 ∧ (50:Nat) &&& 0x7 = WIRE_VARINT) by decide)]
  rw [if_neg (show ¬ ((50:Nat) >>> 3 = 2 ∧ (50:Nat) &&& 0x7 = WIRE_32BIT) by decide)]
  rw [if_neg (show ¬ ((50:Nat) >>> 3 = 3 ∧ (50:Nat) &&& 0x7 = WIRE_VARINT) by decide)]
  rw [if_neg (show ¬ ((50:Nat) >>> 3 = 4 ∧ (50:Nat) &&& 0x7 = WIRE_VARINT) by decide)]
  rw [if_neg (show ¬ ((50:Nat) >>> 3 = 5 ∧ (50:Nat) &&& 0x7 = WIRE_LENGTH) by decide)]
  rw [if_pos (show (50:Nat) >>> 3 = 6 ∧ (50:Nat) &&& 0x7 = WIRE_LENGTH by decide)]
  simp only [hre1]
  rw [if_neg (show ¬ (data.length
      < off + 1 + (encVarNat (encode_string_set_inner ss).length).length
          + (encode_string_set_inner ss).length) by omega)]
  rw [hslice]
  simp only [hinner]
  simp only [List.length_cons, List.length_append]
  have e : off + 1 + (encVarNat (encode_string_set_inner ss).length).length
        + (encode_string_set_inner ss).length
      = off + ((encVarNat (encode_string_set_inner ss).length).length
        + (encode_string_set_inner ss).length + 1) := by omega
  rw [e]

/-- Stepping the Value loop over one unknown varint field: the field is
skipped and `found` is unchanged. -/
theorem value_step_unkVarint (fnum v : Nat) (h1 : fnum ≠ 1) (h3 : fnum ≠ 3) (h4 : fnum ≠ 4)
    (hf : fnum < 2 ^ 60) (hv : v < 2 ^ 64) (fuel : Nat) (data : List Nat) (off : Nat)
    (f : Found) (rest : List Nat)
    (hdrop : data.drop off = encodeFrag (.unkVarint fnum v) ++ rest) :
    parse_value_loop (fuel + 1) data off f
      = parse_value_loop fuel data (off + (encodeFrag (.unkVarint fnum v)).length) f := by
  obtain ⟨hshr, hland⟩ := tag_split fnum WIRE_VARINT (by norm_num [WIRE_VARINT])
  have htageq := tag_lor_eq fnum WIRE_VARINT (by norm_num [WIRE_VARINT])
  have htag : (fnum <<< 3) ||| WIRE_VARINT < 2 ^ 64 := by
    rw [htageq]
    have h16 : (2:Nat) ^ 64 = 16 * 2 ^ 60 := by norm_num
    have hwv : WIRE_VARINT = 0 := rfl
    omega
  have henc : encodeFrag (.unkVarint fnum v)
      = encVarNat ((fnum <<< 3) ||| WIRE_VARINT) ++ encVarNat v := rfl
  rw [henc] at hdrop ⊢
  have hdropA : data.drop off
      = encVarNat ((fnum <<< 3) ||| WIRE_VARINT) ++ (encVarNat v ++ rest) := by
    rw [hdrop, List.append_assoc]
  have hre := read_varint_enc htag hdropA
  have hdrop1 := drop_append_of_drop hdropA
  have hre1 := read_varint_enc hv hdrop1
  have hoff : off < data.length := by
    have hp := encVarNat_len_pos ((fnum <<< 3) ||| WIRE_VARINT)
    have hl := length_drop_eq hdropA
    omega
  simp only [parse_value_loop]
  rw [if_pos hoff]
  simp only [hre]
  rw [if_neg (fun hc => h1 (hshr.symm.trans (And.left hc)))]
  rw [if_neg (fun hc => absurd (hland.symm.trans (And.right hc)) (by decide))]
  rw [if_neg (fun hc => h3 (hshr.symm.trans (And.left hc)))]
  rw [if_neg (fun hc => h4 (hshr.symm.trans (And.left hc)))]
  rw [if_neg (fun hc => absurd (hland.symm.trans (And.right hc)) (by decide))]
  rw [if_neg (fun hc => absurd (hland.symm.trans (And.right hc)) (by decide))]
  rw [if_neg (fun hc => absurd (hland.symm.trans (And.right hc)) (by decide))]
  rw [if_pos hland]
  simp only [hre1]
  rw [List.length_append]
  have e : off + (encVarNat ((fnum <<< 3) ||| WIRE_VARINT)).length + (encVarNat v).length
      = off + ((encVarNat ((fnum <<< 3) ||| WIRE_VARINT)).length + (encVarNat v).length) := by
    omega
  rw [e]

/-- Stepping the Value loop over one unknown length-delimited field: the
field is skipped and `found` is unchanged. -/
theorem value_step_unkLen (fnum : Nat) (p : List Nat) (h5 : fnum ≠ 5) (h6 : fnum ≠ 6)
    (hf : fnum < 2 ^ 60) (hp : p.length < 2 ^ 64) (fuel : Nat) (data : List Nat) (off : Nat)
    (f : Found) (rest : List Nat)
    (hdrop : data.drop off = encodeFrag (.unkLen fnum p) ++ rest) :
    parse_value_loop (fuel + 1) data off f
      = parse_value_loop fuel data (off + (encodeFrag (.unkLen fnum p)).length) f := by
  obtain ⟨hshr, hland⟩ := tag_split fnum WIRE_LENGTH (by norm_num [WIRE_LENGTH])
  have htageq := tag_lor_eq fnum WIRE_LENGTH (by norm_num [WIRE_LENGTH])
  have htag : (fnum <<< 3) ||| WIRE_LENGTH < 2 ^ 64 := by
    rw [htageq]
    have h16 : (2:Nat) ^ 64 = 16 * 2 ^ 60 := by norm_num
    have hwv : WIRE_LENGTH = 2 := rfl
    omega
  have henc : encodeFrag (.unkLen fnum p)
      = encVarNat ((fnum <<< 3) ||| WIRE_LENGTH) ++ encVarNat p.length ++ p := rfl
  rw [henc] at hdrop ⊢
  have hdropA : data.drop off
      = encVarNat ((fnum <<< 3) ||| WIRE_LENGTH) ++ (encVarNat p.length ++ (p ++ rest)) := by
    rw [hdrop, List.append_assoc, List.append_assoc]
  have hre := read_varint_enc htag hdropA
  have hdrop1 := drop_append_of_drop hdropA
  have hre1 := read_varint_enc hp hdrop1
  have hoff : off < data.length := by
    have hq := encVarNat_len_pos ((fnum <<< 3) ||| WIRE_LENGTH)
    have hl := length_drop_eq hdropA
    omega
  simp only [parse_value_loop]
  rw [if_pos hoff]
  simp only [hre]
  rw [if_neg (fun hc => absurd (hland.symm.trans (And.right hc)) (by decide))]
  rw [if_neg (fun hc => absurd (hland.symm.trans (And.right hc)) (by decide))]
  rw [if_neg (fun hc => absurd (hland.symm.trans (And.right hc)) (by decide))]
  rw [if_neg (fun hc => absurd (hland.symm.trans (And.right hc)) (by decide))]
  rw [if_neg (fun hc => h5 (hshr.symm.trans (And.left hc)))]
  rw [if_neg (fun hc => h6 (hshr.symm.trans (And.left hc)))]
  rw [if_neg (fun hc => absurd (hland.symm.trans (And.right hc)) (by decide))]
  rw [if_neg (fun hc => absurd (hland.symm.trans hc) (by decide))]
  rw [if_neg (fun hc => absurd (hland.symm.trans hc) (by decide))]
  rw [if_pos hland]
  simp only [hre1]
  simp only [List.length_append]
  have e : off + (encVarNat ((fnum <<< 3) ||| WIRE_LENGTH)).length
        + (encVarNat p.length).length + p.length
      = off + ((encVarNat ((fnum <<< 3) ||| WIRE_LENGTH)).length
        + (encVarNat p.length).length + p.length) := by omega
  rw [e]

/-- Every encoded field starts with at least a tag byte. -/
theorem encodeFrag_len_pos (g : Frag) : 1 ≤ (encodeFrag g).length := by
  cases g with
  | known pv =>
    cases pv with
    | boolean b =>
      have h := encVarNat_len_pos ((1 <<< 3) ||| WIRE_VARINT)
      simp only [encodeFrag, encode_value_message, List.length_append]
      omega
    | float x =>
      have h := encVarNat_len_pos ((2 <<< 3) ||| WIRE_32BIT)
      simp only [encodeFrag, encode_value_message, List.length_append]
      omega
    | integer i =>
      have h := encVarNat_len_pos ((3 <<< 3) ||| WIRE_VARINT)
      simp only [encodeFrag, encode_value_message, List.length_append]
      omega
    | long l =>
      have h := encVarNat_len_pos ((4 <<< 3) ||| WIRE_VARINT)
      simp only [encodeFrag, encode_value_message, List.length_append]
      omega
    | string s =>
      have h := encVarNat_len_pos ((5 <<< 3) ||| WIRE_LENGTH)
      simp only [encodeFrag, encode_value_message, List.length_append]
      omega
    | stringSet ss =>
      have h := encVarNat_len_pos ((6 <<< 3) ||| WIRE_LENGTH)
      simp only [encodeFrag, encode_value_message, List.length_append]
      omega
    | double x =>
      have h := encVarNat_len_pos ((7 <<< 3) ||| WIRE_64BIT)
      simp only [encodeFrag, encode_value_message, List.length_append]
      omega
  | unkVarint fnum v =>
    have h := encVarNat_len_pos ((fnum <<< 3) ||| WIRE_VARINT)
    simp only [encodeFrag, List.length_append]
    omega
  | unkLen fnum p =>
    have h := encVarNat_len_pos ((fnum <<< 3) ||| WIRE_LENGTH)
    simp only [encodeFrag, List.length_append]
    omega

/-- Folded effect of a field sequence on a `found` record. -/
def applyFrags (f : Found) (fs : List Frag) : Found :=
  fs.foldl applyFrag f

/-- The Value loop over an encoded well-formed field sequence accumulates
exactly the folded effect of the fields. -/
theorem parse_value_loop_frags : ∀ (fs : List Frag) (data : List Nat) (off fuel : Nat)
    (f : Found),
    data.drop off = encodeFrags fs →
    (∀ g ∈ fs, fragWF g = true) →
    data.length - off < fuel →
    parse_value_loop fuel data off f = .ok (applyFrags f fs) := by
  intro fs
  induction fs with
  | nil =>
    intro data off fuel f hdrop hwf hfuel
    have hnil : data.drop off = [] := by rw [hdrop]; rfl
    have hlen := List.drop_eq_nil_iff.mp hnil
    match fuel, hfuel with
    | fuel+1, _ =>
      simp only [parse_value_loop]
      rw [if_neg (by omega)]
      rfl
  | cons g fs ih =>
    intro data off fuel f hdrop hwf hfuel
    have hdropA : data.drop off = encodeFrag g ++ encodeFrags fs := by
      rw [hdrop]
      simp [encodeFrags]
    have hoff : off < data.length := by
      have hq := encodeFrag_len_pos g
      have hl := length_drop_eq hdropA
      omega
    have hdrop2 := drop_append_of_drop hdropA
    have hwf2 : ∀ t ∈ fs, fragWF t = true := fun t ht => hwf t (List.mem_cons_of_mem g ht)
    have hwfg : fragWF g = true := hwf g (List.mem_cons_self g fs)
    match fuel, hfuel with
    | fuel+1, hfuel =>
      have hfl : data.length - (off + (encodeFrag g).length) < fuel := by
        have hq := encodeFrag_len_pos g
        omega
      have happ : applyFrags f (g :: fs) = applyFrags (applyFrag f g) fs := rfl
      rw [happ]
      cases g with
      | known pv =>
        cases pv with
        | boolean b =>
          rw [value_step_boolean b fuel data off f _ hdropA]
          rw [ih data _ fuel _ hdrop2 hwf2 hfl]
          rfl
        | float x =>
          rw [value_step_float x fuel data off f _ hdropA]
          rw [ih data _ fuel _ hdrop2 hwf2 hfl]
          rfl
        | integer i =>
          simp only [fragWF, decide_eq_true_eq] at hwfg
          rw [value_step_integer i hwfg fuel data off f _ hdropA]
          rw [ih data _ fuel _ hdrop2 hwf2 hfl]
          rfl
        | long l =>
          simp only [fragWF, decide_eq_true_eq] at hwfg
          rw [value_step_long l hwfg fuel data off f _ hdropA]
          rw [ih data _ fuel _ hdrop2 hwf2 hfl]
          rfl
        | string s =>
          simp only [fragWF, decide_eq_true_eq] at hwfg
          rw [value_step_string s hwfg fuel data off f _ hdropA]
          rw [ih data _ fuel _ hdrop2 hwf2 hfl]
          rfl
        | stringSet ss =>
          simp only [fragWF, Bool.and_eq_true, List.all_eq_true, decide_eq_true_eq] at hwfg
          rw [value_step_stringSet ss hwfg.1 hwfg.2 fuel data off f _ hdropA]
          rw [ih data _ fuel _ hdrop2 hwf2 hfl]
          rfl
        | double x =>
          rw [value_step_double x fuel data off f _ hdropA]
          rw [ih data _ fuel _ hdrop2 hwf2 hfl]
          rfl
      | unkVarint fnum v =>
        simp only [fragWF, Bool.and_eq_true, decide_eq_true_eq] at hwfg
        obtain ⟨⟨⟨⟨hn1, hn3⟩, hn4⟩, hnf⟩, hnv⟩ := hwfg
        rw [value_step_unkVarint fnum v hn1 hn3 hn4 hnf hnv fuel data off f _ hdropA]
        rw [ih data _ fuel _ hdrop2 hwf2 hfl]
        rfl
      | unkLen fnum p =>
        simp only [fragWF, Bool.and_eq_true, decide_eq_true_eq] at hwfg
        obtain ⟨⟨⟨hn5, hn6⟩, hnf⟩, hnp⟩ := hwfg
        rw [value_step_unkLen fnum p hn5 hn6 hnf hnp fuel data off f _ hdropA]
        rw [ih data _ fuel _ hdrop2 hwf2 hfl]
        rfl

/-- `parse_value_message` on an encoded well-formed field sequence yields
the priority selection over the accumulated `found` record. -/
theorem parse_value_message_frags (fs : List Frag)
    (hwf : ∀ g ∈ fs, fragWF g = true) :
    parse_value_message (encodeFrags fs) = .ok (select_found (applyFrags {} fs)) := by
  unfold parse_value_message
  rw [parse_value_loop_frags fs (encodeFrags fs) 0 ((encodeFrags fs).length + 1) {}
    (by simp) hwf (by omega)]

/-! ### Priority selection over the `found` record -/

/-- Variant kinds. -/
inductive Kind where
  | boolean
  | float
  | integer
  | long
  | string
  | stringSet
  | double
deriving DecidableEq, Repr

/-- The kind of a variant value. -/
def kindOf : PrefValue → Kind
  | .boolean _ => .boolean
  | .float _ => .float
  | .integer _ => .integer
  | .long _ => .long
  | .string _ => .string
  | .stringSet _ => .stringSet
  | .double _ => .double

/-- The source's fixed priority order of the selection loop. -/
def priorityOrder : List Kind :=
  [.boolean, .float, .integer, .long, .string, .stringSet, .double]

/-- Whether `found` has a stored payload for a kind. -/
def foundHas (f : Found) : Kind → Bool
  | .boolean => f.boolean.isSome
  | .float => f.float.isSome
  | .integer => f.integer.isSome
  | .long => f.long.isSome
  | .string => f.string.isSome
  | .stringSet => f.string_set.isSome
  | .double => f.double.isSome

/-- The stored payload of `found` for a kind, as a variant value. -/
def foundGet (f : Found) : Kind → Option PrefValue
  | .boolean => f.boolean.map PrefValue.boolean
  | .float => f.float.map PrefValue.float
  | .integer => f.integer.map PrefValue.integer
  | .long => f.long.map PrefValue.long
  | .string => f.string.map PrefValue.string
  | .stringSet => f.string_set.map PrefValue.stringSet
  | .double => f.double.map PrefValue.double

/-- Kind carried by a field (none for unknown fields). -/
def fragKind : Frag → Option Kind
  | .known pv => some (kindOf pv)
  | .unkVarint _ _ => none
  | .unkLen _ _ => none

/-- First kind of the priority order populated by a field sequence. -/
def priorityFirst (fs : List Frag) : Option Kind :=
  priorityOrder.find? (fun k => fs.any (fun g => decide (fragKind g = some k)))

/-- The decoded payload a field stores for a given kind (none when the
field is unknown or of a different kind). -/
def fragDecoded (k : Kind) : Frag → Option PrefValue
  | .known pv => if kindOf pv = k then some (decodedKnown pv) else none
  | .unkVarint _ _ => none
  | .unkLen _ _ => none

/-- The decoded payload of the last field of a given kind in a sequence. -/
def lastKnown (fs : List Frag) (k : Kind) : Option PrefValue :=
  (fs.filterMap (fragDecoded k)).getLast?

/-- The source's selection loop returns the payload of the first populated
kind in priority order. -/
theorem select_found_eq (f : Found) :
    select_found f = (priorityOrder.find? (foundHas f)).bind (foundGet f) := by
  obtain ⟨b, fl, i, l, s, t, d⟩ := f
  cases b <;> cases fl <;> cases i <;> cases l <;> cases s <;> cases t <;> cases d <;> rfl

/-- One field's effect on which kinds are populated. -/
theorem foundHas_applyFrag (f : Found) (g : Frag) (k : Kind) :
    foundHas (applyFrag f g) k = (foundHas f k || decide (fragKind g = some k)) := by
  cases g with
  | known pv => cases pv <;> cases k <;> simp [applyFrag, foundHas, fragKind, kindOf]
  | unkVarint fnum v => cases k <;> simp [applyFrag, foundHas, fragKind]
  | unkLen fnum p => cases k <;> simp [applyFrag, foundHas, fragKind]

/-- A field sequence populates a kind exactly when one of its known fields
carries that kind. -/
theorem foundHas_applyFrags (fs : List Frag) : ∀ (f : Found) (k : Kind),
    foundHas (applyFrags f fs) k
      = (foundHas f k || fs.any (fun g => decide (fragKind g = some k))) := by
  induction fs with
  | nil => intro f k; simp [applyFrags]
  | cons g fs ih =>
    intro f k
    show foundHas (applyFrags (applyFrag f g) fs) k = _
    rw [ih, foundHas_applyFrag]
    simp [Bool.or_assoc]

/-- The empty record populates nothing. -/
theorem foundHas_empty (k : Kind) : foundHas {} k = false := by
  cases k <;> rfl

/-- One field's effect on the stored payload of a kind. -/
theorem foundGet_applyFrag (f : Found) (g : Frag) (k : Kind) :
    foundGet (applyFrag f g) k = (fragDecoded k g).or (foundGet f k) := by
  cases g with
  | known pv =>
    cases pv <;> cases k <;>
      simp [applyFrag, foundGet, fragDecoded, decodedKnown, kindOf]
  | unkVarint fnum v => cases k <;> simp [applyFrag, fragDecoded]
  | unkLen fnum p => cases k <;> simp [applyFrag, fragDecoded]

/-- The stored payload of a kind after a field sequence is the payload of
the last field of that kind (falling back to the initial record). -/
theorem foundGet_applyFrags (fs : List Frag) : ∀ (f : Found) (k : Kind),
    foundGet (applyFrags f fs) k = (lastKnown fs k).or (foundGet f k) := by
  induction fs with
  | nil => intro f k; simp [applyFrags, lastKnown]
  | cons g fs ih =>
    intro f k
    show foundGet (applyFrags (applyFrag f g) fs) k = _
    rw [ih, foundGet_applyFrag]
    have hlast : lastKnown (g :: fs) k = (lastKnown fs k).or (fragDecoded k g) := by
      unfold lastKnown
      rw [List.filterMap_cons]
      cases hg : fragDecoded k g with
      | none => simp
      | some pv =>
        show ((pv :: fs.filterMap (fragDecoded k)) : List PrefValue).getLast? = _
        rw [show (pv :: fs.filterMap (fragDecoded k))
            = [pv] ++ fs.filterMap (fragDecoded k) from rfl]
        rw [List.getLast?_append]
        rfl
    rw [hlast, Option.or_assoc]

/-- The empty record stores nothing. -/
theorem foundGet_empty (k : Kind) : foundGet {} k = none := by
  cases k <;> rfl

/-- A stored payload always carries the kind it is stored under. -/
theorem foundGet_kind {f : Found} {k : Kind} {pv : PrefValue}
    (h : foundGet f k = some pv) : kindOf pv = k := by
  cases k <;>
    · simp only [foundGet, Option.map_eq_some'] at h
      obtain ⟨x, hx, rfl⟩ := h
      rfl

/-- A populated kind has a stored payload. -/
theorem foundGet_isSome {f : Found} {k : Kind} (h : foundHas f k = true) :
    ∃ pv, foundGet f k = some pv := by
  cases k <;>
    · simp only [foundHas, Option.isSome_iff_exists] at h
      obtain ⟨x, hx⟩ := h
      simp [foundGet, hx]

/-! ### Top-level framing lemmas -/

/-- The top-level field-1 framing of one MapEntry slice, as emitted by
`encode_preferences_dict`. -/
def encode_top_entry (entry : List Nat) : List Nat :=
  encVarNat ((1 <<< 3) ||| WIRE_LENGTH) ++ encVarNat entry.length ++ entry

/-- The top-level loop stops cleanly at the end of the buffer. -/
theorem parse_top_loop_done (fuel : Nat) (data : List Nat) (off : Nat)
    (res : List (List Nat × Option PrefValue)) (h : data.length ≤ off) (hf : 1 ≤ fuel) :
    parse_top_loop fuel data off res = .ok res := by
  match fuel, hf with
  | fuel+1, _ =>
    simp only [parse_top_loop]
    rw [if_neg (by omega)]

/-- Decoding a buffer holding exactly one framed MapEntry slice: the result
is determined by the entry's own parse. -/
theorem parse_preferences_single (entry : List Nat) (hn : entry.length < 2 ^ 64) :
    parse_preferences_pb (encode_top_entry entry)
      = match parse_map_entry entry with
        | .error e => .error e
        | .ok (none, _) => .ok []
        | .ok (some key, none) => .ok [(key, none)]
        | .ok (some key, some val_bytes) =>
          match parse_value_message val_bytes with
          | .error e => .error e
          | .ok v => .ok [(key, v)] := by
  have hdata : encode_top_entry entry = 10 :: (encVarNat entry.length ++ entry) := rfl
  have hdrop0 : (encode_top_entry entry).drop 0
      = encVarNat 10 ++ (encVarNat entry.length ++ entry) := by
    rw [List.drop_zero, hdata]; rfl
  have hre : read_varint (encode_top_entry entry) 0 = .ok (10, 1) := by
    have h := read_varint_enc (v := 10) (by norm_num) hdrop0
    simpa using h
  have hdrop1 : (encode_top_entry entry).drop 1 = encVarNat entry.length ++ entry := by
    have hc : (encode_top_entry entry).drop 0
        = 10 :: (encVarNat entry.length ++ entry) := by
      rw [List.drop_zero, hdata]
    have h := drop_succ_of_drop hc
    simpa using h
  have hre1 : read_varint (encode_top_entry entry) 1
      = .ok (entry.length, 1 + (encVarNat entry.length).length) :=
    read_varint_enc hn hdrop1
  have hdrop2 : (encode_top_entry entry).drop (1 + (encVarNat entry.length).length)
      = entry ++ [] := by
    rw [drop_append_of_drop hdrop1, List.append_nil]
  have hslice : pySlice (encode_top_entry entry) (1 + (encVarNat entry.length).length)
      entry.length = entry :=
    pySlice_of_drop hdrop2
  have hlen : (encode_top_entry entry).length
      = 1 + (encVarNat entry.length).length + entry.length := by
    rw [hdata]
    simp [List.length_append]
    omega
  have hoff0 : 0 < (encode_top_entry entry).length := by omega
  show parse_top_loop ((encode_top_entry entry).length + 1) (encode_top_entry entry) 0 [] = _
  simp only [parse_top_loop]
  rw [if_pos hoff0]
  simp only [hre]
  rw [if_pos (show (10:Nat) >>> 3 = 1 ∧ (10:Nat) &&& 0x7 = WIRE_LENGTH by decide)]
  simp only [hre1, hslice]
  cases hpe : parse_map_entry entry with
  | error e => rfl
  | ok kv =>
    obtain ⟨k, vb⟩ := kv
    cases k with
    | none =>
      simp only []
      rw [if_neg (show ¬ (1 + (encVarNat entry.length).length + entry.length
        < (encode_top_entry entry).length) by omega)]
    | some key =>
      cases vb with
      | none =>
        simp only []
        rw [if_neg (show ¬ (1 + (encVarNat entry.length).length + entry.length
          < (encode_top_entry entry).length) by omega)]
        simp [dictInsert]
      | some val_bytes =>
        simp only []
        cases hpv : parse_value_message val_bytes with
        | error e => rfl
        | ok v =>
          simp only []
          rw [if_neg (show ¬ (1 + (encVarNat entry.length).length + entry.length
            < (encode_top_entry entry).length) by omega)]
          simp [dictInsert]

/-! ### Unknown wire type behaviour, per nesting level -/

/-- A tag with a wire type outside the four known kinds aborts the Value
scan with `unknownWireValue`. -/
theorem parse_value_loop_badwire (fuel : Nat) (data : List Nat) (off : Nat) (f : Found)
    (tag off1 : Nat) (hoff : off < data.length)
    (hre : read_varint data off = .ok (tag, off1))
    (hw : tag &&& 0x7 = 3 ∨ tag &&& 0x7 = 4 ∨ tag &&& 0x7 = 6 ∨ tag &&& 0x7 = 7) :
    parse_value_loop (fuel + 1) data off f = .error .unknownWireValue := by
  have hne0 : tag &&& 0x7 ≠ WIRE_VARINT := by
    rcases hw with h | h | h | h <;> rw [h] <;> decide
  have hne1 : tag &&& 0x7 ≠ WIRE_64BIT := by
    rcases hw with h | h | h | h <;> rw [h] <;> decide
  have hne2 : tag &&& 0x7 ≠ WIRE_LENGTH := by
    rcases hw with h | h | h | h <;> rw [h] <;> decide
  have hne5 : tag &&& 0x7 ≠ WIRE_32BIT := by
    rcases hw with h | h | h | h <;> rw [h] <;> decide
  simp only [parse_value_loop]
  rw [if_pos hoff]
  simp only [hre]
  rw [if_neg (fun hc => hne0 (And.right hc))]
  rw [if_neg (fun hc => hne5 (And.right hc))]
  rw [if_neg (fun hc => hne0 (And.right hc))]
  rw [if_neg (fun hc => hne0 (And.right hc))]
  rw [if_neg (fun hc => hne2 (And.right hc))]
  rw [if_neg (fun hc => hne2 (And.right hc))]
  rw [if_neg (fun hc => hne1 (And.right hc))]
  rw [if_neg hne0, if_neg hne1, if_neg hne2, if_neg hne5]

/-- A tag with a wire type outside the four known kinds aborts the MapEntry
scan with `unknownWireEntry`. -/
theorem parse_entry_loop_badwire (fuel : Nat) (entry : List Nat) (eoff : Nat)
    (key val_bytes : Option (List Nat)) (tag e1 : Nat) (hoff : eoff < entry.length)
    (hre : read_varint entry eoff = .ok (tag, e1))
    (hw : tag &&& 0x7 = 3 ∨ tag &&& 0x7 = 4 ∨ tag &&& 0x7 = 6 ∨ tag &&& 0x7 = 7) :
    parse_entry_loop (fuel + 1) entry eoff key val_bytes = .error .unknownWireEntry := by
  have hne0 : tag &&& 0x7 ≠ WIRE_VARINT := by
    rcases hw with h | h | h | h <;> rw [h] <;> decide
  have hne1 : tag &&& 0x7 ≠ WIRE_64BIT := by
    rcases hw with h | h | h | h <;> rw [h] <;> decide
  have hne2 : tag &&& 0x7 ≠ WIRE_LENGTH := by
    rcases hw with h | h | h | h <;> rw [h] <;> decide
  have hne5 : tag &&& 0x7 ≠ WIRE_32BIT := by
    rcases hw with h | h | h | h <;> rw [h] <;> decide
  simp only [parse_entry_loop]
  rw [if_pos hoff]
  simp only [hre]
  rw [if_neg (fun hc => hne2 (And.right hc))]
  rw [if_neg (fun hc => hne2 (And.right hc))]
  rw [if_neg hne0, if_neg hne1, if_neg hne2, if_neg hne5]

/-- A tag with a wire type outside the four known kinds aborts the
top-level scan with `unknownWireTop`. -/
theorem parse_top_loop_badwire (fuel : Nat) (data : List Nat) (off : Nat)
    (res : List (List Nat × Option PrefValue)) (tag off1 : Nat) (hoff : off < data.length)
    (hre : read_varint data off = .ok (tag, off1))
    (hw : tag &&& 0x7 = 3 ∨ tag &&& 0x7 = 4 ∨ tag &&& 0x7 = 6 ∨ tag &&& 0x7 = 7) :
    parse_top_loop (fuel + 1) data off res = .error .unknownWireTop := by
  have hne0 : tag &&& 0x7 ≠ WIRE_VARINT := by
    rcases hw with h | h | h | h <;> rw [h] <;> decide
  have hne1 : tag &&& 0x7 ≠ WIRE_64BIT := by
    rcases hw with h | h | h | h <;> rw [h] <;> decide
  have hne2 : tag &&& 0x7 ≠ WIRE_LENGTH := by
    rcases hw with h | h | h | h <;> rw [h] <;> decide
  have hne5 : tag &&& 0x7 ≠ WIRE_32BIT := by
    rcases hw with h | h | h | h <;> rw [h] <;> decide
  simp only [parse_top_loop]
  rw [if_pos hoff]
  simp only [hre]
  rw [if_neg (fun hc => hne2 (And.right hc))]
  rw [if_neg hne0, if_neg hne1, if_neg hne2, if_neg hne5]

/-- Inside a StringSet submessage the same situation does NOT raise: the
scan silently stops (the source's `break`) and keeps the elements already
collected. -/
theorem parse_ss_loop_badwire (fuel : Nat) (sub : List Nat) (suboff : Nat)
    (arr : List (List Nat)) (tag so1 : Nat) (hoff : suboff < sub.length)
    (hre : read_varint sub suboff = .ok (tag, so1))
    (hw : tag &&& 0x7 = 3 ∨ tag &&& 0x7 = 4 ∨ tag &&& 0x7 = 6 ∨ tag &&& 0x7 = 7) :
    parse_ss_loop (fuel + 1) sub suboff arr = .ok arr := by
  have hne0 : tag &&& 0x7 ≠ WIRE_VARINT := by
    rcases hw with h | h | h | h <;> rw [h] <;> decide
  have hne1 : tag &&& 0x7 ≠ WIRE_64BIT := by
    rcases hw with h | h | h | h <;> rw [h] <;> decide
  have hne2 : tag &&& 0x7 ≠ WIRE_LENGTH := by
    rcases hw with h | h | h | h <;> rw [h] <;> decide
  have hne5 : tag &&& 0x7 ≠ WIRE_32BIT := by
    rcases hw with h | h | h | h <;> rw [h] <;> decide
  simp only [parse_ss_loop]
  rw [if_pos hoff]
  simp only [hre]
  rw [if_neg (fun hc => hne2 (And.right hc))]
  rw [if_neg hne0, if_neg hne1, if_neg hne2, if_neg hne5]

/-- Shared form of the decode result on an encoded well-formed field
sequence: the stored payload of the first populated kind in priority
order. -/
theorem parse_value_message_priority (fs : List Frag)
    (hwf : ∀ g ∈ fs, fragWF g = true) :
    parse_value_message (encodeFrags fs)
      = .ok ((priorityFirst fs).bind (foundGet (applyFrags {} fs))) := by
  have hmsg := parse_value_message_frags fs hwf
  have hfun : foundHas (applyFrags {} fs)
      = (fun k => fs.any (fun g => decide (fragKind g = some k))) := by
    funext k
    rw [foundHas_applyFrags, foundHas_empty]
    simp
  rw [hmsg, select_found_eq, hfun]
  rfl

/-! ### Claim theorems -/

/-- C1: the required round trip `decode(encode(m)) = m` fails on the code:
for the one-key map sending key "k" (byte 107) to Integer −1, the encoder
emits the 64-bit two's-complement varint `2^64 − 1` and the decoder's
int32 branch turns it into `2^64 − 1 − 2^32 = 18446744069414584319`
instead of −1, so the decoded map differs from the input map. -/
theorem C1_roundtrip_fails_eval :
    parse_preferences_pb (encode_preferences_dict [([107], some (.integer (-1)))])
      = .ok [([107], some (.integer 18446744069414584319))]
    ∧ ([([107], some (PrefValue.integer 18446744069414584319))]
        : List (List Nat × Option PrefValue))
      ≠ [([107], some (.integer (-1)))] := by
  constructor
  · decide
  · decide

/-- C2: truncation of a declared length-delimited payload does not raise
TruncatedData everywhere: the top-level buffer `0a 04 0a 05 61 62`
declares a MapEntry whose key claims 5 bytes while only `61 62` remain;
the key slice is silently clamped to "ab" and decoding succeeds with a
partial key instead of failing. -/
theorem C2_truncated_key_eval :
    parse_preferences_pb [10, 4, 10, 5, 97, 98] = .ok [([97, 98], none)] := by
  decide

/-- C3: the int32 decode rule is not "truncate to the low 32 bits": for
the Value message `18 ff ff ff ff ff ff ff ff ff 01` (field 3, varint
`2^64 − 1`, the two's-complement encoding of int32 −1 whose low 32 bits
reinterpret to −1) the code returns `2^64 − 1 − 2^32`, not −1. -/
theorem C3_int32_no_truncation_eval :
    parse_value_message [24, 255, 255, 255, 255, 255, 255, 255, 255, 255, 1]
      = .ok (some (.integer 18446744069414584319))
    ∧ (18446744069414584319 : Int) ≠ -1 := by
  constructor
  · decide
  · decide

/-- C4 counterexample: the Value message `32 01 0b` nests the byte `0b`
(field 1, wire type 3) inside a StringSet submessage; the claim demands
an UnsupportedWireType failure, yet decoding succeeds with an empty
StringSet because the inner scanner silently breaks. -/
theorem C4_counterexample :
    parse_value_message [50, 1, 11] = .ok (some (.stringSet [])) := by
  decide

/-- C4 (amended): a field whose 3-bit wire type is outside
{varint, 64-bit, length-delimited, 32-bit} aborts decoding with the
UnsupportedWireType error at the top-level, MapEntry and Value nesting
levels; inside the StringSet submessage it instead silently ends the
element scan, keeping the elements collected so far, without error. -/
theorem C4_unsupported_wiretype_amended :
    (∀ (fuel : Nat) (data : List Nat) (off : Nat) (f : Found) (tag off1 : Nat),
      off < data.length → read_varint data off = .ok (tag, off1) →
      (tag &&& 0x7 = 3 ∨ tag &&& 0x7 = 4 ∨ tag &&& 0x7 = 6 ∨ tag &&& 0x7 = 7) →
      parse_value_loop (fuel + 1) data off f = .error .unknownWireValue)
    ∧ (∀ (fuel : Nat) (entry : List Nat) (eoff : Nat) (key vb : Option (List Nat))
        (tag e1 : Nat),
      eoff < entry.length → read_varint entry eoff = .ok (tag, e1) →
      (tag &&& 0x7 = 3 ∨ tag &&& 0x7 = 4 ∨ tag &&& 0x7 = 6 ∨ tag &&& 0x7 = 7) →
      parse_entry_loop (fuel + 1) entry eoff key vb = .error .unknownWireEntry)
    ∧ (∀ (fuel : Nat) (data : List Nat) (off : Nat)
        (res : List (List Nat × Option PrefValue)) (tag off1 : Nat),
      off < data.length → read_varint data off = .ok (tag, off1) →
      (tag &&& 0x7 = 3 ∨ tag &&& 0x7 = 4 ∨ tag &&& 0x7 = 6 ∨ tag &&& 0x7 = 7) →
      parse_top_loop (fuel + 1) data off res = .error .unknownWireTop)
    ∧ (∀ (fuel : Nat) (sub : List Nat) (suboff : Nat) (arr : List (List Nat))
        (tag so1 : Nat),
      suboff < sub.length → read_varint sub suboff = .ok (tag, so1) →
      (tag &&& 0x7 = 3 ∨ tag &&& 0x7 = 4 ∨ tag &&& 0x7 = 6 ∨ tag &&& 0x7 = 7) →
      parse_ss_loop (fuel + 1) sub suboff arr = .ok arr) :=
  ⟨fun fuel data off f tag off1 hoff hre hw =>
      parse_value_loop_badwire fuel data off f tag off1 hoff hre hw,
   fun fuel entry eoff key vb tag e1 hoff hre hw =>
      parse_entry_loop_badwire fuel entry eoff key vb tag e1 hoff hre hw,
   fun fuel data off res tag off1 hoff hre hw =>
      parse_top_loop_badwire fuel data off res tag off1 hoff hre hw,
   fun fuel sub suboff arr tag so1 hoff hre hw =>
      parse_ss_loop_badwire fuel sub suboff arr tag so1 hoff hre hw⟩

/-- Witness for the amended C4 statement at the one-byte buffer `0b`
(field 1, wire type 3), at every nesting level. -/
theorem C4_amended_witness :
    parse_value_loop 1 [11] 0 {} = .error .unknownWireValue
    ∧ parse_entry_loop 1 [11] 0 none none = .error .unknownWireEntry
    ∧ parse_top_loop 1 [11] 0 [] = .error .unknownWireTop
    ∧ parse_ss_loop 1 [11] 0 [] = .ok [] := by
  obtain ⟨h1, h2, h3, h4⟩ := C4_unsupported_wiretype_amended
  exact ⟨h1 0 [11] 0 {} 11 1 (by decide) (by decide) (by decide),
         h2 0 [11] 0 none none 11 1 (by decide) (by decide) (by decide),
         h3 0 [11] 0 [] 11 1 (by decide) (by decide) (by decide),
         h4 0 [11] 0 [] 11 1 (by decide) (by decide) (by decide)⟩

/-- C5: on a Value slice made of well-formed fields, the decoder returns
Absent when no known field is present, and otherwise a variant of the
first populated kind in the fixed priority order boolean, float, integer,
long, string, string_set, double — regardless of the position of the
fields in the slice. -/
theorem C5_priority_selection (fs : List Frag)
    (hwf : ∀ g ∈ fs, fragWF g = true) :
    (priorityFirst fs = none → parse_value_message (encodeFrags fs) = .ok none)
    ∧ (∀ k, priorityFirst fs = some k →
        ∃ pv, parse_value_message (encodeFrags fs) = .ok (some pv) ∧ kindOf pv = k) := by
  have hmsg := parse_value_message_priority fs hwf
  constructor
  · intro hnone
    rw [hmsg, hnone]
    rfl
  · intro k hk
    rw [hmsg, hk]
    have hk2 : priorityOrder.find?
        (fun j => fs.any (fun g => decide (fragKind g = some j))) = some k := hk
    have hp := List.find?_some hk2
    have hhas : foundHas (applyFrags {} fs) k = true := by
      rw [foundHas_applyFrags, foundHas_empty]
      simpa using hp
    obtain ⟨pv, hpv⟩ := foundGet_isSome hhas
    refine ⟨pv, ?_, foundGet_kind hpv⟩
    rw [Option.some_bind, hpv]

/-- Witness for C5: an int32 field followed by a boolean field decodes to
the boolean variant (priority), not the last field encountered. -/
theorem C5_witness :
    (∃ pv, parse_value_message (encodeFrags
        [Frag.known (.integer 5), Frag.known (.boolean true)]) = .ok (some pv)
      ∧ kindOf pv = Kind.boolean)
    ∧ parse_value_message (encodeFrags
        [Frag.known (.integer 5), Frag.known (.boolean true)])
      = .ok (some (.boolean true)) :=
  ⟨(C5_priority_selection [Frag.known (.integer 5), Frag.known (.boolean true)]
      (by decide)).2 Kind.boolean (by decide), by decide⟩

/-- C6 counterexample: a successful varint decode can consume 11 bytes,
not at most 10: ten continuation bytes followed by `01` decode to
`2 ^ 70` after consuming 11 bytes. -/
theorem C6_counterexample :
    read_varint [128, 128, 128, 128, 128, 128, 128, 128, 128, 128, 1] 0
      = .ok (2 ^ 70, 11) ∧ ¬ (11 ≤ 0 + 10) := by
  constructor
  · decide
  · decide

/-- C6 (amended): varint decode fails with VarintOverflow when 11
seven-bit groups are consumed without a terminating byte (the shift guard
fires after the 11th continuation byte); consequently a successful varint
decode never consumes more than 11 bytes. -/
theorem C6_varint_overflow_amended :
    (∀ (data : List Nat) (pos : Nat),
      pos + 11 ≤ data.length →
      (∀ i, i < 11 → data.getD (pos + i) 0 &&& 0x80 ≠ 0) →
      read_varint data pos = .error .varintTooBig)
    ∧ (∀ (data : List Nat) (pos v p2 : Nat),
      read_varint data pos = .ok (v, p2) → p2 ≤ pos + 11) :=
  ⟨fun _ _ h1 h2 => read_varint_overflow h1 h2,
   fun _ _ _ _ h => read_varint_consume h⟩

/-- Witness for the amended C6 statement: eleven continuation bytes
overflow, and a successful one-byte decode respects the bound. -/
theorem C6_amended_witness :
    read_varint [128, 128, 128, 128, 128, 128, 128, 128, 128, 128, 128] 0
      = .error .varintTooBig
    ∧ 1 ≤ 0 + 11 := by
  obtain ⟨h1, h2⟩ := C6_varint_overflow_amended
  exact ⟨h1 [128, 128, 128, 128, 128, 128, 128, 128, 128, 128, 128] 0
      (by decide) (by decide),
    h2 [5] 0 5 1 (by decide)⟩

/-- C7: varint round trip — for every unsigned 64-bit value, decoding the
encoding returns the value and the encoded length. -/
theorem C7_varint_roundtrip (v : Nat) (hv : v < 2 ^ 64) :
    read_varint (encode_varint (v : Int)) 0
      = .ok (v, (encode_varint (v : Int)).length) := by
  rw [encode_varint_natCast]
  have h := read_varint_enc hv
    (show (encVarNat v).drop 0 = encVarNat v ++ [] by simp)
  simpa using h

/-- Witness for C7 at v = 300 (a two-byte varint). -/
theorem C7_witness : read_varint (encode_varint ((300 : Nat) : Int)) 0 = .ok (300, 2) := by
  have h := C7_varint_roundtrip 300 (by norm_num)
  rw [show (encode_varint ((300 : Nat) : Int)).length = 2 from rfl] at h
  exact h

/-- C8 counterexample: a successful varint decode can return a value with
up to 77 bits, well above `2 ^ 64`: ten continuation bytes followed by
`7f` decode to `127 * 2 ^ 70`. -/
theorem C8_counterexample :
    read_varint [128, 128, 128, 128, 128, 128, 128, 128, 128, 128, 127] 0
      = .ok (127 * 2 ^ 70, 11)
    ∧ ¬ (127 * 2 ^ 70 < 2 ^ 64) := by
  constructor
  · decide
  · decide

/-- C8 (amended): every value returned by a successful varint decode is
strictly below `2 ^ 77` (at most 11 seven-bit groups are accumulated). -/
theorem C8_varint_value_bound_amended (data : List Nat) (pos v p2 : Nat)
    (h : read_varint data pos = .ok (v, p2)) : v < 2 ^ 77 :=
  read_varint_bound h

/-- Witness for the amended C8 statement on a one-byte varint. -/
theorem C8_amended_witness : read_varint [5] 0 = .ok (5, 1) ∧ (5:Nat) < 2 ^ 77 :=
  ⟨by decide, C8_varint_value_bound_amended [5] 0 5 1 (by decide)⟩

/-- C9: a MapEntry slice whose parse finds no field-1 key is dropped
without error (the decoded map has no entry for it), and a slice whose
parse finds a key but no field-2 value slice yields that key mapped to
Absent. -/
theorem C9_entry_handling (entry : List Nat) (hn : entry.length < 2 ^ 64)
    (k : List Nat) (vb : Option (List Nat)) :
    (parse_map_entry entry = .ok (none, vb) →
      parse_preferences_pb (encode_top_entry entry) = .ok [])
    ∧ (parse_map_entry entry = .ok (some k, none) →
      parse_preferences_pb (encode_top_entry entry) = .ok [(k, none)]) := by
  constructor
  · intro h
    rw [parse_preferences_single entry hn, h]
  · intro h
    rw [parse_preferences_single entry hn, h]

/-- Witness for C9: the empty entry has no key and is dropped; the entry
`0a 01 61` has key "a" and no value and decodes to Absent. -/
theorem C9_witness :
    parse_preferences_pb (encode_top_entry []) = .ok []
    ∧ parse_preferences_pb (encode_top_entry [10, 1, 97]) = .ok [([97], none)] :=
  ⟨(C9_entry_handling [] (by decide) [97] none).1 (by decide),
   (C9_entry_handling [10, 1, 97] (by decide) [97] none).2 (by decide)⟩

/-- C10: when the same known field number occurs more than once in a
Value slice, the payload of the returned variant is the one carried by
the last occurrence (each occurrence overwrites the previous), while the
variant itself is still chosen by the priority order. -/
theorem C10_last_occurrence_value (fs : List Frag) (k : Kind) (pv : PrefValue)
    (hwf : ∀ g ∈ fs, fragWF g = true)
    (hk : priorityFirst fs = some k)
    (hlast : lastKnown fs k = some pv) :
    parse_value_message (encodeFrags fs) = .ok (some pv) := by
  rw [parse_value_message_priority fs hwf, hk, Option.some_bind]
  rw [foundGet_applyFrags, foundGet_empty, Option.or_none, hlast]

/-- Witness for C10: two int32 fields with values 5 then 6 decode to the
integer variant carrying 6 (the last occurrence). -/
theorem C10_witness :
    parse_value_message (encodeFrags
        [Frag.known (.integer 5), Frag.known (.integer 6)])
      = .ok (some (.integer 6)) :=
  C10_last_occurrence_value [Frag.known (.integer 5), Frag.known (.integer 6)]
    Kind.integer (.integer 6) (by decide) (by decide) (by decide)
